import Mathlib

/-!
Shallow embedding of the GTI (Good Time Interval) algebra from
`stingray/gti.py`.  Times are modelled as rationals (the source uses
extended-precision floats; every input appearing in a concrete scenario is
exactly representable).  A GTI list is a list of `(start, stop)` pairs.

Modelling conventions:
* numpy boolean conditions are written with `if _ then true else false` so
  that they evaluate on concrete rationals;
* `np.argsort` (applied jointly to the start/stop/tag arrays) is modelled
  as a stable sort by the key that the source sorts on;
* functions whose only failure mode is an `assert` on malformed input are
  modelled as total functions plus validity hypotheses in the theorems,
  except where a claim is about the error itself (`check_gtis`,
  `time_intervals_from_gtis`, `append_gtis`), which return `Except`.
-/

namespace Stingray

/-- A GTI list: ordered `(start, stop)` pairs. -/
abbrev GTIList := List (ℚ × ℚ)

/-- Start column of a GTI list (`gti[:, 0]` in the source). -/
def startsOf (g : GTIList) : List ℚ := g.map Prod.fst

/-- Stop column of a GTI list (`gti[:, 1]` in the source). -/
def endsOf (g : GTIList) : List ℚ := g.map Prod.snd

/-- Boolean `a ≤ b` on rationals, written so it simplifies on literals. -/
def qle (a b : ℚ) : Bool := if a ≤ b then true else false

/-- Boolean `a < b` on rationals. -/
def qlt (a b : ℚ) : Bool := if a < b then true else false

/-- Faithful embedding of `check_gtis`: first asserts
`np.all(gti_end >= gti_start)` (message "This GTI is incorrect"), then
`np.all(gti_start[1:] >= gti_end[:-1])` (message "This GTI has overlaps"). -/
def check_gtis (g : GTIList) : Except String Unit :=
  if g.all (fun p => qle p.1 p.2) then
    if (g.zip g.tail).all (fun pq => qle pq.1.2 pq.2.1) then
      Except.ok ()
    else
      Except.error "This GTI has overlaps"
  else
    Except.error "This GTI is incorrect"

/-- Boolean form of GTI validity: both asserts of `check_gtis` hold. -/
def gtiOk (g : GTIList) : Bool :=
  g.all (fun p => qle p.1 p.2) &&
    (g.zip g.tail).all (fun pq => qle pq.1.2 pq.2.1)

/-- Key-based order used to model `np.argsort` on a given column. -/
def leKey {α : Type} (key : α → ℚ) (a b : α) : Prop := key a ≤ key b

instance {α : Type} (key : α → ℚ) : DecidableRel (leKey key) :=
  fun a b => inferInstanceAs (Decidable (key a ≤ key b))

instance {α : Type} (key : α → ℚ) : IsTotal α (leKey key) :=
  ⟨fun a b => le_total (key a) (key b)⟩

instance {α : Type} (key : α → ℚ) : IsTrans α (leKey key) :=
  ⟨fun _ _ _ h1 h2 => le_trans h1 h2⟩

/-- Stable sort by a rational key (model of `np.argsort` applied to all
co-indexed arrays at once). -/
def sortByKey {α : Type} (key : α → ℚ) (l : List α) : List α :=
  List.insertionSort (leKey key) l

/-- Model of `np.argmax`: index of the first occurrence of the maximum.
On the empty array numpy raises; the source catches that case, so the
value returned here for `[]` is never used. -/
def np_argmax : List ℚ → ℕ
  | [] => 0
  | [_] => 0
  | x :: y :: ys =>
    let j := np_argmax (y :: ys)
    if x < (y :: ys).getD j 0 then j + 1 else 0

/-- Maximum of a nonempty rational list (`0` on `[]`, never used there). -/
def maxQ : List ℚ → ℚ
  | [] => 0
  | x :: xs => xs.foldl max x

/-! ### Intersection: `cross_two_gtis` -/

/-- State of the sweep in `cross_two_gtis`: `last_end` and the accumulated
`final_gti`. -/
structure CrossState where
  lastEnd : ℚ
  acc : GTIList
deriving Repr

/-- One iteration of the `for ie, e in enumerate(conc_end)` loop of
`cross_two_gtis`.  `s0, s1, e0, e1` are the per-series start/stop arrays in
their original order; the event carries `(e, start, tag)` with tag `false`
for series 0.  The `try/except` around the two `np.argmax` calls fires
exactly when one of the filtered arrays is empty. -/
def crossCore (sThis sOther eOther : List ℚ) (st : CrossState) (e : ℚ) :
    CrossState :=
  let fThis := sThis.filter (fun x => qlt x e)
  let fOther := sOther.filter (fun x => qlt x e)
  if fThis.isEmpty || fOther.isEmpty then st
  else
    let stv := fThis.getD (np_argmax fThis) 0
    let soPos := np_argmax fOther
    let sov := fOther.getD soPos 0
    let s := max stv sov
    if s ≤ st.lastEnd then st
    else
      let cond1 := eOther.any (fun x => qlt s x && qlt x e)
      let cond2 := qlt (eOther.getD soPos 0) s
      if cond1 || cond2 then st
      else ⟨e, st.acc ++ [(s, e)]⟩

def crossStep (s0 s1 e0 e1 : List ℚ) (st : CrossState) (ev : ℚ × ℚ × Bool) :
    CrossState :=
  if ev.2.2 then crossCore s1 s0 e0 st ev.1 else crossCore s0 s1 e1 st ev.1

/-- The concatenated (stop, start, tag) events of both series, sorted by
stop time (tag `false` = series 0, `true` = series 1). -/
def crossEvents (g0 g1 : GTIList) : List (ℚ × ℚ × Bool) :=
  sortByKey (fun t => t.1)
    ((g0.map (fun p => (p.2, p.1, false))) ++ (g1.map (fun p => (p.2, p.1, true))))

/-- Faithful embedding of `cross_two_gtis` (after the entry validation,
which the theorems carry as hypotheses).  `last_end` starts at
`conc_start[0] - 1`, the start co-sorted with the earliest stop. -/
def cross_two_gtis (g0 g1 : GTIList) : GTIList :=
  match crossEvents g0 g1 with
  | [] => []
  | t :: rest =>
    ((t :: rest).foldl
      (crossStep (startsOf g0) (startsOf g1) (endsOf g0) (endsOf g1))
      ⟨t.2.1 - 1, []⟩).acc

/-! ### Complement: `get_btis` -/

/-- Faithful embedding of `get_btis`.  The middle gaps come from
`zip(flat_gtis[1:-2:2], flat_gtis[2:-1:2])`, i.e. each consecutive
(stop, next start) pair; the first and last entries reproduce the
source's `[[gtis[0][0] - start_time]]` / `[[gtis[0][0] - stop_time]]`
one-element rows verbatim, which is why the result is a list of rows
rather than a list of pairs. -/
def get_btis (gtis : GTIList) (startTime stopTime : Option ℚ) :
    List (List ℚ) :=
  match gtis with
  | [] =>
    match startTime, stopTime with
    | some a, some b => [[a, b]]
    | _, _ => []
  | g0 :: rest =>
    let lastStop := (rest.getLastD g0).2
    let st := startTime.getD g0.1
    let sp := stopTime.getD lastStop
    let btis0 : List (List ℚ) := if g0.1 - st ≤ 0 then [] else [[g0.1 - st]]
    let middle := ((g0 :: rest).zip rest).map (fun pq => [pq.1.2, pq.2.1])
    let btis1 := btis0 ++ middle
    if 0 < sp - lastStop then btis1 ++ [[g0.1 - sp]] else btis1

/-! ### Mask building: `create_gti_mask` -/

/-- Faithful embedding of the mask computation of `create_gti_mask`
(after `check_gtis`): the half-width array `dt` and the safety-margin
pair are taken as explicit inputs (scalar-to-pair promotion and the
default `dt` happen at the call boundary in the source). -/
def create_gti_mask (time dt : List ℚ) (gtis : GTIList) (safe : ℚ × ℚ)
    (minLength : ℚ) : List Bool :=
  gtis.foldl
    (fun mask g =>
      let limmin := g.1 + safe.1
      let limmax := g.2 - safe.2
      if minLength ≤ limmax - limmin then
        List.zipWith
          (fun m td =>
            m || (qle limmin (td.1 - td.2) && qle (td.1 + td.2) limmax))
          mask (time.zip dt)
      else mask)
    (List.replicate time.length false)

/-! ### Chunk planning: `time_intervals_from_gtis` -/

/-- Model of `np.arange(start, stop, step)` for positive rational `step`:
the values `start + j * step` strictly below `stop`. -/
def np_arange (start stop step : ℚ) : List ℚ :=
  (List.range (⌈(stop - start) / step⌉.toNat)).map
    (fun j => start + (j : ℚ) * step)

/-- Faithful embedding of `time_intervals_from_gtis`: GTIs shorter than
`chunk_length` are skipped, the rest contribute
`np.arange(g[0], g[1] - chunk_length, chunk_length)`; the trailing
`assert` becomes the error case. -/
def time_intervals_from_gtis (gtis : GTIList) (chunkLength : ℚ) :
    Except String (List ℚ × List ℚ) :=
  let sst := gtis.foldl
    (fun acc g =>
      if g.2 - g.1 < chunkLength then acc
      else acc ++ np_arange g.1 (g.2 - chunkLength) chunkLength)
    []
  if sst.isEmpty then
    Except.error "No GTIs are equal to or longer than chunk_length."
  else
    Except.ok (sst, sst.map (fun t => t + chunkLength))

/-! ### Union: `check_separate`, `append_gtis`, `join_gtis` -/

/-- Faithful embedding of `check_separate` (after its entry validation):
compares the first start / last stop of each list against the other. -/
def check_separate (g0 g1 : GTIList) : Bool :=
  match g0, g1 with
  | [], _ => true
  | _, [] => true
  | a :: as_, b :: bs =>
    qle ((as_.getLastD a).2) b.1 || qle ((bs.getLastD b).2) a.1

/-- Faithful embedding of `append_gtis` (after its entry validation);
the error message reproduces the source's accidentally concatenated
string literals. -/
def append_gtis (g0 g1 : GTIList) : Except String GTIList :=
  if check_separate g0 g1 then Except.ok (g0 ++ g1)
  else Except.error "In order to append, GTIs must be mutuallyexclusive."

/-- Signed boundary events of both lists for `join_gtis`: each interval
contributes `(start, -1)` and `(stop, +1)` in flatten order, then
everything is sorted by time. -/
def joinEvents (g0 g1 : GTIList) : List (ℚ × ℤ) :=
  sortByKey (fun p => p.1)
    ((g0.flatMap (fun p => [(p.1, (-1 : ℤ)), (p.2, 1)])) ++
      (g1.flatMap (fun p => [(p.1, (-1 : ℤ)), (p.2, 1)])))

/-- Running sums (`np.cumsum`). -/
def cumsumFrom (acc : ℤ) : List ℤ → List ℤ
  | [] => []
  | x :: xs => (acc + x) :: cumsumFrom (acc + x) xs

/-- Model of `np.cumsum`. -/
def cumsum (l : List ℤ) : List ℤ := cumsumFrom 0 l

/-- Boolean-mask selection (`arr[mask]`). -/
def maskSel (ts : List ℚ) (m : List Bool) : List ℚ :=
  ((ts.zip m).filter (fun p => p.2)).map Prod.fst

/-- Model of `np.roll(mask, 1)`. -/
def np_roll1 (l : List Bool) : List Bool :=
  match l with
  | [] => []
  | x :: xs => (xs.getLastD x) :: (x :: xs).dropLast

/-- Faithful embedding of `join_gtis` (after its entry validation).  On
separate lists it appends them in argument order; otherwise it pairs the
boundary right after each zero of the cumulative sum with the next zero,
and finally sorts the two columns independently
(`np.sort(final_gti, axis=0)`). -/
def join_gtis (g0 g1 : GTIList) : GTIList :=
  if check_separate g0 g1 then g0 ++ g1
  else
    let evs := joinEvents g0 g1
    let times := evs.map Prod.fst
    let sums := cumsum (evs.map Prod.snd)
    let closing := sums.map (fun s => s == 0)
    let starting := np_roll1 closing
    let startingTimes := maskSel times starting
    let closingTimes := maskSel times closing
    (sortByKey id startingTimes).zip (sortByKey id closingTimes)

/-! ### Claim C8: `create_gti_mask` -/

/-- Single-GTI update of the mask in `create_gti_mask`. -/
def maskStep (time dt : List ℚ) (safe : ℚ × ℚ) (minLength : ℚ)
    (mask : List Bool) (g : ℚ × ℚ) : List Bool :=
  let limmin := g.1 + safe.1
  let limmax := g.2 - safe.2
  if minLength ≤ limmax - limmin then
    List.zipWith
      (fun m td => m || (qle limmin (td.1 - td.2) && qle (td.1 + td.2) limmax))
      mask (time.zip dt)
  else mask

/-! ### Claim C4: `join_gtis` on mutually overlapping lists -/

/-- Mask of closing boundaries per the claim: a merged interval closes
exactly where the running signed sum over the sorted boundaries returns
to zero. -/
def joinCloseMask (g0 g1 : GTIList) : List Bool :=
  (cumsum ((joinEvents g0 g1).map Prod.snd)).map (fun s => s == 0)

/-- Closing times of the merged intervals per the claim. -/
def joinCloseTimes (g0 g1 : GTIList) : List ℚ :=
  maskSel ((joinEvents g0 g1).map Prod.fst) (joinCloseMask g0 g1)

/-- Starting times of the merged intervals per the claim: the first
boundary, and every boundary immediately after a zero of the running
sum. -/
def joinStartTimes (g0 g1 : GTIList) : List ℚ :=
  maskSel ((joinEvents g0 g1).map Prod.fst)
    (true :: (joinCloseMask g0 g1).dropLast)

/-! ### Claim C10: structural invariants of the outputs -/

/-- Propositional form of the `check_gtis` invariant: every interval has
stop ≥ start, and each stop is at or before the next start. -/
def gtiOkP (g : GTIList) : Prop :=
  (∀ p ∈ g, p.1 ≤ p.2) ∧ List.Chain' (fun p q : ℚ × ℚ => p.2 ≤ q.1) g

/-- Recursive form of selection by the rolled mask `inc :: m.dropLast`:
position `k + 1` of the time axis is selected iff the mask holds at
position `k`. -/
def selShift : Bool → List ℚ → List Bool → List ℚ
  | _, [], _ => []
  | _, _ :: _, [] => []
  | inc, t :: ts, c :: m => (if inc then [t] else []) ++ selShift c ts m

/-- Chain and bounds satisfied by the merged pairs: each pair is an
interval, pairs do not overlap, and all starts are at or after `lo`. -/
def goodPairs (lo : ℚ) (ps : GTIList) : Prop :=
  List.Chain' (fun p q : ℚ × ℚ => p.2 ≤ q.1) ps ∧
    ∀ p ∈ ps, p.1 ≤ p.2 ∧ lo ≤ p.1

/-- Whole-list ordering used by `append_gtis`: the first list ends at or
before the second begins. -/
def endsBefore (g0 g1 : GTIList) : Prop :=
  match g0, g1 with
  | [], _ => True
  | _, [] => True
  | a :: as_, b :: _ => (as_.getLastD a).2 ≤ b.1

/-- One step of the sweep rule exactly as the claim words it: the
candidate start is the later of the two latest starts strictly before
`e`; it is accepted unless it lies at or before the previously emitted
stop, or the other series closes an interval strictly inside the
candidate.  (No clause about the other series having already closed
before the candidate start.) -/
def c1ClaimStep (sThis sOther eOther : List ℚ) (st : Option ℚ × GTIList)
    (e : ℚ) : Option ℚ × GTIList :=
  let fThis := sThis.filter (fun x => qlt x e)
  let fOther := sOther.filter (fun x => qlt x e)
  if fThis.isEmpty || fOther.isEmpty then st
  else
    let s := max (maxQ fThis) (maxQ fOther)
    if (match st.1 with
        | some le => qle s le
        | none => false) then st
    else
      let closesInside := eOther.any (fun x => qlt s x && qlt x e)
      if closesInside then st
      else (some e, st.2 ++ [(s, e)])

/-- The claim's sweep rule applied to the sorted stop events. -/
def c1ClaimRule (g0 g1 : GTIList) : GTIList :=
  ((crossEvents g0 g1).foldl
    (fun st ev =>
      if ev.2.2 then c1ClaimStep (startsOf g1) (startsOf g0) (endsOf g0) st ev.1
      else c1ClaimStep (startsOf g0) (startsOf g1) (endsOf g1) st ev.1)
    (none, [])).2

/-- One step of the amended sweep rule: as `c1ClaimStep`, plus the
clause the counterexample forces — the candidate is also rejected when
the other series' interval holding its latest start before `e` (the
first such interval on ties) closes strictly before the candidate
start. -/
def specCrossStep (sThis sOther eOther : List ℚ) (st : Option ℚ × GTIList)
    (e : ℚ) : Option ℚ × GTIList :=
  let fThis := sThis.filter (fun x => qlt x e)
  let fOther := sOther.filter (fun x => qlt x e)
  if fThis.isEmpty || fOther.isEmpty then st
  else
    let s := max (maxQ fThis) (maxQ fOther)
    if (match st.1 with
        | some le => qle s le
        | none => false) then st
    else
      let closesInside := eOther.any (fun x => qlt s x && qlt x e)
      let closedBefore :=
        qlt (eOther.getD (fOther.findIdx (fun x => qle (maxQ fOther) x)) 0) s
      if closesInside || closedBefore then st
      else (some e, st.2 ++ [(s, e)])

/-- The amended sweep rule applied to the sorted stop events. -/
def specCrossRule (g0 g1 : GTIList) : GTIList :=
  ((crossEvents g0 g1).foldl
    (fun st ev =>
      if ev.2.2 then specCrossStep (startsOf g1) (startsOf g0) (endsOf g0) st ev.1
      else specCrossStep (startsOf g0) (startsOf g1) (endsOf g1) st ev.1)
    (none, [])).2

/-- Relation between the code's sweep state and the spec's: same
accumulator, and the threshold is either still the initial sentinel
`x - 1` (spec: nothing emitted) or the last emitted stop. -/
def crossRel (x : ℚ) (stc : CrossState) (sts : Option ℚ × GTIList) : Prop :=
  stc.acc = sts.2 ∧
    ((sts.1 = none ∧ stc.lastEnd = x - 1) ∨
      (∃ le, sts.1 = some le ∧ stc.lastEnd = le))

/-- Per-event initial-threshold property: if both series have starts
strictly before the event's stop, the candidate start beats the initial
sentinel `x - 1`. -/
def initOK (S0 S1 : List ℚ) (x : ℚ) (ev : ℚ × ℚ × Bool) : Prop :=
  S0.filter (fun y => qlt y ev.1) ≠ [] →
  S1.filter (fun y => qlt y ev.1) ≠ [] →
  x - 1 < max (maxQ (S0.filter (fun y => qlt y ev.1)))
    (maxQ (S1.filter (fun y => qlt y ev.1)))

/-! ### Claim C7: commutativity of `cross_two_gtis` -/

/-- Candidate start of the sweep at stop `e`: the later of the two
latest starts strictly before `e`. -/
def sCand (sT sO : List ℚ) (e : ℚ) : ℚ :=
  max (maxQ (sT.filter (fun x => qlt x e)))
    (maxQ (sO.filter (fun x => qlt x e)))

/-- Event is skipped because one series has no start before `e`. -/
def emptyCand (sT sO : List ℚ) (e : ℚ) : Bool :=
  (sT.filter (fun x => qlt x e)).isEmpty ||
    (sO.filter (fun x => qlt x e)).isEmpty

/-- The veto conditions of the amended rule. -/
def vetoCand (sT sO eO : List ℚ) (e : ℚ) : Bool :=
  (eO.any (fun x => qlt (sCand sT sO e) x && qlt x e)) ||
    qlt (eO.getD ((sO.filter (fun x => qlt x e)).findIdx
      (fun x => qle (maxQ (sO.filter (fun x => qlt x e))) x)) 0)
      (sCand sT sO e)

/-- Swap the origin tag of an event (series 0 becomes series 1). -/
def negTag (ev : ℚ × ℚ × Bool) : ℚ × ℚ × Bool := (ev.1, ev.2.1, !ev.2.2)

theorem gtiOk_iff_check (g : GTIList) :
    gtiOk g = true ↔ check_gtis g = Except.ok () := by
  unfold gtiOk check_gtis
  by_cases h1 : g.all (fun p => qle p.1 p.2) = true <;>
    by_cases h2 : (g.zip g.tail).all (fun pq => qle pq.1.2 pq.2.1) = true <;>
      simp [h1, h2]

/-! ### Helper lemmas -/

theorem qle_eq_true {a b : ℚ} : qle a b = true ↔ a ≤ b := by simp [qle]

theorem qlt_eq_true {a b : ℚ} : qlt a b = true ↔ a < b := by simp [qlt]

theorem mem_zip_tail_iff {g : GTIList} {pq : (ℚ × ℚ) × ℚ × ℚ} :
    pq ∈ g.zip g.tail ↔
      ∃ i, ∃ h : i + 1 < g.length,
        pq = (g.get ⟨i, Nat.lt_of_succ_lt h⟩, g.get ⟨i + 1, h⟩) := by
  constructor
  · intro hm
    rcases List.mem_iff_getElem.1 hm with ⟨i, hi, hget⟩
    have hlen := List.length_zip g g.tail
    have htl : g.tail.length = g.length - 1 := List.length_tail g
    have hi1 : i + 1 < g.length := by
      rw [hlen, htl] at hi
      omega
    refine ⟨i, hi1, ?_⟩
    have h2 : i < g.tail.length := by rw [htl]; omega
    rw [List.getElem_zip] at hget
    rw [List.getElem_tail g i h2] at hget
    simp only [List.get_eq_getElem]
    exact hget.symm
  · rintro ⟨i, h, rfl⟩
    have h2 : i < g.tail.length := by
      rw [List.length_tail]; omega
    have hi : i < (g.zip g.tail).length := by
      rw [List.length_zip, List.length_tail]
      omega
    refine List.mem_iff_getElem.2 ⟨i, hi, ?_⟩
    rw [List.getElem_zip, List.getElem_tail g i h2]
    simp only [List.get_eq_getElem]

/-! ### Claim C3: `check_gtis` error conditions -/

/-- C3: `check_gtis` raises an error if and only if some interval has
stop < start or some interval's start precedes the previous interval's
stop; `check_gtis [[0,5],[6,8]]` passes and `check_gtis [[0,5],[4,8]]`
raises the overlap error. -/
theorem c3_check_gtis_spec :
    (∀ g : GTIList,
      check_gtis g ≠ Except.ok () ↔
        ((∃ p ∈ g, p.2 < p.1) ∨
          ∃ i, ∃ h : i + 1 < g.length,
            (g.get ⟨i + 1, h⟩).1 < (g.get ⟨i, Nat.lt_of_succ_lt h⟩).2)) ∧
    check_gtis [(0, 5), (6, 8)] = Except.ok () ∧
    check_gtis [(0, 5), (4, 8)] = Except.error "This GTI has overlaps" := by
  refine ⟨fun g => ?_, by norm_num [check_gtis, qle], by norm_num [check_gtis, qle]⟩
  have hok : check_gtis g ≠ Except.ok () ↔ ¬ (gtiOk g = true) := by
    constructor
    · intro h hg
      exact h ((gtiOk_iff_check g).1 hg)
    · intro h hg
      exact h ((gtiOk_iff_check g).2 hg)
  rw [hok]
  unfold gtiOk
  rw [Bool.and_eq_true, not_and_or]
  constructor
  · rintro (h | h)
    · left
      rw [List.all_eq_true] at h
      push_neg at h
      rcases h with ⟨p, hp, hq⟩
      simp only [Ne, qle_eq_true] at hq
      exact ⟨p, hp, lt_of_not_le fun hc => hq hc⟩
    · right
      rw [List.all_eq_true] at h
      push_neg at h
      rcases h with ⟨pq, hpq, hq⟩
      rcases mem_zip_tail_iff.1 hpq with ⟨i, hi, rfl⟩
      simp only [Ne, qle_eq_true] at hq
      exact ⟨i, hi, lt_of_not_le fun hc => hq hc⟩
  · rintro (⟨p, hp, hq⟩ | ⟨i, hi, hq⟩)
    · left
      rw [List.all_eq_true]
      push_neg
      refine ⟨p, hp, fun hc => ?_⟩
      rw [qle_eq_true] at hc
      exact absurd hq (not_lt.2 hc)
    · right
      rw [List.all_eq_true]
      push_neg
      refine ⟨(g.get ⟨i, Nat.lt_of_succ_lt hi⟩, g.get ⟨i + 1, hi⟩),
        mem_zip_tail_iff.2 ⟨i, hi, rfl⟩, fun hc => ?_⟩
      rw [qle_eq_true] at hc
      exact absurd hq (not_lt.2 hc)

/-! ### Claim C2: `get_btis` -/

/-- C2 (code bug): on the claimed scenario
`get_btis([[2,5],[6,9]], 0, 10)` the code does not return
`[[0,2],[5,6],[9,10]]`; the leading entry is the one-element row
`[gtis[0][0] - start_time]` and the trailing entry is
`[gtis[0][0] - stop_time]`. -/
theorem c2_get_btis_bug :
    get_btis [(2, 5), (6, 9)] (some 0) (some 10) = [[2], [5, 6], [-8]] ∧
    get_btis [(2, 5), (6, 9)] (some 0) (some 10) ≠
      [[0, 2], [5, 6], [9, 10]] := by
  constructor
  · norm_num [get_btis]
  · norm_num [get_btis]

/-! ### Claim C5: disjoint union / intersection -/

/-- C5 (code bug): `[[0,5]]` and `[[5,8]]` are separate as a whole, yet
`cross_two_gtis` returns `[[5,8]]` instead of the empty list; and on the
separate pair `[[5,6]]`, `[[0,1]]` (second list first in time)
`join_gtis` returns the unsorted concatenation `[[5,6],[0,1]]`. -/
theorem c5_disjoint_bug :
    check_separate [(0, 5)] [(5, 8)] = true ∧
    cross_two_gtis [(0, 5)] [(5, 8)] = [(5, 8)] ∧
    check_separate [(5, 6)] [(0, 1)] = true ∧
    join_gtis [(5, 6)] [(0, 1)] = [(5, 6), (0, 1)] := by
  refine ⟨by norm_num [check_separate, qle], ?_,
    by norm_num [check_separate, qle], by norm_num [join_gtis, check_separate, qle]⟩
  norm_num [cross_two_gtis, crossEvents, sortByKey, List.insertionSort,
    List.orderedInsert, leKey, crossStep, crossCore, startsOf, endsOf, qlt, np_argmax,
    List.filter]

/-! ### Claim C6: complement round trip -/

/-- C6 (code bug): for `G = [[2,5],[6,9]]` bounded by `[2, 9]` the
complement is `[[5,6]]`, but `cross_two_gtis(G, [[5,6]])` returns
`[[5,6]]` rather than the empty list (the sweep accepts candidates that
merely touch the other series), and `join_gtis(G, [[5,6]])` returns
`[[2,5],[5,9]]`, not the single interval `[[2,9]]`. -/
theorem c6_complement_roundtrip_bug :
    get_btis [(2, 5), (6, 9)] (some 2) (some 9) = [[5, 6]] ∧
    cross_two_gtis [(2, 5), (6, 9)] [(5, 6)] = [(5, 6)] ∧
    join_gtis [(2, 5), (6, 9)] [(5, 6)] = [(2, 5), (5, 9)] := by
  refine ⟨by norm_num [get_btis], ?_, ?_⟩
  · norm_num [cross_two_gtis, crossEvents, sortByKey, List.insertionSort,
      List.orderedInsert, leKey, crossStep, crossCore, startsOf, endsOf, qlt, np_argmax,
      List.filter]
  · norm_num [join_gtis, joinEvents, sortByKey, List.insertionSort,
      List.orderedInsert, leKey, check_separate, qle, List.flatMap, cumsum,
      cumsumFrom, maskSel, np_roll1, List.filter]

/-! ### Claim C9: `time_intervals_from_gtis` -/

/-- C9 (code bug): `np.arange(g[0], g[1] - chunk_length, chunk_length)`
excludes its stop, so a GTI exactly as long as `chunk_length` yields no
chunk at all — `time_intervals_from_gtis([[0,5]], 5)` raises
"No GTIs are equal to or longer than chunk_length." even though the GTI
is equal to the chunk length, and a GTI of length exactly
`2 * chunk_length` yields one window instead of two. -/
theorem c9_chunks_bug :
    time_intervals_from_gtis [(0, 5)] 5 =
      Except.error "No GTIs are equal to or longer than chunk_length." ∧
    time_intervals_from_gtis [(0, 10)] 5 = Except.ok ([0], [5]) := by
  constructor
  · norm_num [time_intervals_from_gtis, np_arange]
  · norm_num [time_intervals_from_gtis, np_arange, List.range_succ]

theorem create_gti_mask_eq_fold (time dt : List ℚ) (gtis : GTIList)
    (safe : ℚ × ℚ) (minLength : ℚ) :
    create_gti_mask time dt gtis safe minLength =
      gtis.foldl (maskStep time dt safe minLength)
        (List.replicate time.length false) := rfl

theorem maskStep_length {time dt : List ℚ} (hlen : dt.length = time.length)
    {mask : List Bool} (hm : mask.length = time.length)
    (safe : ℚ × ℚ) (minLength : ℚ) (g : ℚ × ℚ) :
    (maskStep time dt safe minLength mask g).length = time.length := by
  unfold maskStep
  by_cases h : minLength ≤ (g.2 - safe.2) - (g.1 + safe.1)
  · simp only [h, if_pos]
    rw [List.length_zipWith, List.length_zip, hm, hlen]
    simp
  · rw [if_neg h]
    exact hm

theorem maskStep_getD {time dt : List ℚ} (hlen : dt.length = time.length)
    {mask : List Bool} (hm : mask.length = time.length)
    (safe : ℚ × ℚ) (minLength : ℚ) (g : ℚ × ℚ) {i : ℕ}
    (hi : i < time.length) :
    ((maskStep time dt safe minLength mask g).getD i false = true ↔
      (mask.getD i false = true ∨
        (minLength ≤ (g.2 - safe.2) - (g.1 + safe.1) ∧
          g.1 + safe.1 ≤ time.getD i 0 - dt.getD i 0 ∧
          time.getD i 0 + dt.getD i 0 ≤ g.2 - safe.2))) := by
  have hzl : (time.zip dt).length = time.length := by
    rw [List.length_zip, hlen]; simp
  have hid : i < dt.length := by rw [hlen]; exact hi
  unfold maskStep
  by_cases h : minLength ≤ (g.2 - safe.2) - (g.1 + safe.1)
  · simp only [h, if_pos]
    have hlz : i < (List.zipWith
        (fun m td => m || (qle (g.1 + safe.1) (td.1 - td.2) &&
          qle (td.1 + td.2) (g.2 - safe.2))) mask (time.zip dt)).length := by
      rw [List.length_zipWith, hm, hzl]
      simp [hi]
    rw [List.getD_eq_getElem _ _ hlz, List.getElem_zipWith]
    rw [List.getD_eq_getElem _ _ (by rw [hm]; exact hi),
      List.getD_eq_getElem _ _ hi, List.getD_eq_getElem _ _ hid]
    have hzi : i < (time.zip dt).length := by rw [hzl]; exact hi
    rw [List.getElem_zip]
    simp only [Bool.or_eq_true, Bool.and_eq_true, qle_eq_true]
    tauto
  · rw [if_neg h]
    constructor
    · intro hmask
      exact Or.inl hmask
    · rintro (hmask | ⟨hc, _⟩)
      · exact hmask
      · exact absurd hc h

theorem mask_fold_getD {time dt : List ℚ} (hlen : dt.length = time.length)
    (safe : ℚ × ℚ) (minLength : ℚ) {i : ℕ} (hi : i < time.length) :
    ∀ (gtis : GTIList) (mask : List Bool), mask.length = time.length →
      ((gtis.foldl (maskStep time dt safe minLength) mask).getD i false = true ↔
        (mask.getD i false = true ∨
          ∃ p ∈ gtis, minLength ≤ (p.2 - safe.2) - (p.1 + safe.1) ∧
            p.1 + safe.1 ≤ time.getD i 0 - dt.getD i 0 ∧
            time.getD i 0 + dt.getD i 0 ≤ p.2 - safe.2)) := by
  intro gtis
  induction gtis with
  | nil => intro mask _; simp
  | cons p rest ih =>
    intro mask hm
    rw [List.foldl_cons]
    rw [ih _ (maskStep_length hlen hm safe minLength p)]
    rw [maskStep_getD hlen hm safe minLength p hi]
    constructor
    · rintro ((hmask | hp) | ⟨q, hq, hcond⟩)
      · exact Or.inl hmask
      · exact Or.inr ⟨p, List.mem_cons_self p rest, hp⟩
      · exact Or.inr ⟨q, List.mem_cons_of_mem p hq, hcond⟩
    · rintro (hmask | ⟨q, hq, hcond⟩)
      · exact Or.inl (Or.inl hmask)
      · rcases List.mem_cons.1 hq with rfl | hq'
        · exact Or.inl (Or.inr hcond)
        · exact Or.inr ⟨q, hq', hcond⟩

/-- C8: a sample `i` is masked true by `create_gti_mask` iff its window
`[time[i]-dt[i], time[i]+dt[i]]` lies inside some margin-shrunk interval
whose shrunk length is at least `min_length`; in particular an interval
whose shrinking collapses (shrunk stop < shrunk start) contributes no
mask bit when `min_length ≥ 0`, and no error is raised (the function is
total on validated inputs). -/
theorem c8_mask_iff (time dt : List ℚ) (gtis : GTIList) (safe : ℚ × ℚ)
    (minLength : ℚ) (_hv : gtiOk gtis = true)
    (hlen : dt.length = time.length) (i : ℕ) (hi : i < time.length) :
    ((create_gti_mask time dt gtis safe minLength).getD i false = true ↔
      ∃ p ∈ gtis, minLength ≤ (p.2 - safe.2) - (p.1 + safe.1) ∧
        p.1 + safe.1 ≤ time.getD i 0 - dt.getD i 0 ∧
        time.getD i 0 + dt.getD i 0 ≤ p.2 - safe.2) ∧
    (0 ≤ minLength →
      ∀ p ∈ gtis, p.2 - safe.2 < p.1 + safe.1 →
        ¬ minLength ≤ (p.2 - safe.2) - (p.1 + safe.1)) := by
  constructor
  · rw [create_gti_mask_eq_fold]
    rw [mask_fold_getD hlen safe minLength hi gtis
      (List.replicate time.length false) (List.length_replicate _ _)]
    have hrep : (List.replicate time.length false).getD i false = false := by
      rw [List.getD_eq_getElem _ _ (by simpa using hi)]
      exact List.getElem_replicate _ _
    rw [hrep]
    simp
  · intro hml p _ hcol hle
    have : (p.2 - safe.2) - (p.1 + safe.1) < 0 := by linarith
    linarith

/-- Witness for C8: with `time = [1/2, 3/2]`, `dt = [1/2, 1/2]`,
`gtis = [[0,2]]`, no margins and `min_length = 0`, sample 0 is masked
and the interval `[0,2]` contains its window `[0,1]`. -/
theorem c8_mask_iff_witness :
    gtiOk [((0 : ℚ), (2 : ℚ))] = true ∧
    ([((1 : ℚ)/2, (1 : ℚ)/2)].map Prod.snd).length =
      ([((1 : ℚ)/2, (1 : ℚ)/2)].map Prod.fst).length ∧
    (((create_gti_mask [(1 : ℚ)/2] [(1 : ℚ)/2] [(0, 2)] (0, 0) 0).getD 0
        false = true ↔
      ∃ p ∈ [((0 : ℚ), (2 : ℚ))],
        (0 : ℚ) ≤ (p.2 - (0 : ℚ)) - (p.1 + (0 : ℚ)) ∧
          p.1 + 0 ≤ ([(1 : ℚ)/2].getD 0 0 - [(1 : ℚ)/2].getD 0 0) ∧
          ([(1 : ℚ)/2].getD 0 0 + [(1 : ℚ)/2].getD 0 0) ≤ p.2 - 0) ∧
      ((0 : ℚ) ≤ 0 →
        ∀ p ∈ [((0 : ℚ), (2 : ℚ))], p.2 - 0 < p.1 + 0 →
          ¬ (0 : ℚ) ≤ (p.2 - 0) - (p.1 + 0))) :=
  ⟨by norm_num [gtiOk, qle], by norm_num,
    c8_mask_iff [(1 : ℚ)/2] [(1 : ℚ)/2] [(0, 2)] (0, 0) 0
      (by norm_num [gtiOk, qle]) (by norm_num) 0 (by norm_num)⟩

theorem maskSel_nil_right (ts : List ℚ) : maskSel ts [] = [] := by
  simp [maskSel]

theorem maskSel_cons (t : ℚ) (ts : List ℚ) (b : Bool) (m : List Bool) :
    maskSel (t :: ts) (b :: m) =
      if b then t :: maskSel ts m else maskSel ts m := by
  cases b <;> rfl

theorem maskSel_sublist : ∀ (ts : List ℚ) (m : List Bool),
    (maskSel ts m).Sublist ts := by
  intro ts
  induction ts with
  | nil => intro m; simp [maskSel]
  | cons t ts ih =>
    intro m
    cases m with
    | nil => rw [maskSel_nil_right]; exact List.nil_sublist _
    | cons b m =>
      rw [maskSel_cons]
      cases b with
      | false => simpa using (ih m).cons t
      | true => simpa using (ih m).cons₂ t

theorem cumsumFrom_ne_nil (a : ℤ) {l : List ℤ} (h : l ≠ []) :
    cumsumFrom a l ≠ [] := by
  cases l with
  | nil => exact absurd rfl h
  | cons x xs => simp [cumsumFrom]

theorem getLastD_cumsumFrom :
    ∀ (l : List ℤ) (a d : ℤ), l ≠ [] → (cumsumFrom a l).getLastD d = a + l.sum := by
  intro l
  induction l with
  | nil => intro a d h; exact absurd rfl h
  | cons x xs ih =>
    intro a d _
    cases xs with
    | nil => simp [cumsumFrom]
    | cons y ys =>
      rw [cumsumFrom, List.getLastD_cons]
      rw [ih (a + x) (a + x) (by simp)]
      simp [List.sum_cons]
      ring

theorem joinTypes_sum (g : GTIList) :
    ((g.flatMap (fun p => [(p.1, (-1 : ℤ)), (p.2, 1)])).map Prod.snd).sum = 0 := by
  induction g with
  | nil => simp
  | cons p rest ih =>
    rw [List.flatMap_cons, List.map_append, List.sum_append, ih]
    simp

theorem joinEvents_snd_sum (g0 g1 : GTIList) :
    ((joinEvents g0 g1).map Prod.snd).sum = 0 := by
  have hperm : (joinEvents g0 g1).Perm
      ((g0.flatMap (fun p => [(p.1, (-1 : ℤ)), (p.2, 1)])) ++
        (g1.flatMap (fun p => [(p.1, (-1 : ℤ)), (p.2, 1)]))) :=
    List.perm_insertionSort _ _
  rw [(hperm.map Prod.snd).sum_eq, List.map_append, List.sum_append,
    joinTypes_sum, joinTypes_sum]
  norm_num

theorem joinEvents_ne_nil {g0 : GTIList} (g1 : GTIList) (h : g0 ≠ []) :
    joinEvents g0 g1 ≠ [] := by
  intro hnil
  have hperm : (joinEvents g0 g1).Perm
      ((g0.flatMap (fun p => [(p.1, (-1 : ℤ)), (p.2, 1)])) ++
        (g1.flatMap (fun p => [(p.1, (-1 : ℤ)), (p.2, 1)]))) :=
    List.perm_insertionSort _ _
  have := hperm.length_eq
  rw [hnil] at this
  cases g0 with
  | nil => exact h rfl
  | cons p rest =>
    rw [List.length_append, List.flatMap_cons, List.length_append] at this
    simp only [List.length_cons, List.length_nil] at this
    omega

theorem check_separate_false_left {g0 g1 : GTIList}
    (h : check_separate g0 g1 = false) : g0 ≠ [] := by
  intro hnil
  rw [hnil] at h
  simp [check_separate] at h

theorem getLastD_map_eq {α β : Type} (f : α → β) (d : β) (d' : α) :
    ∀ l : List α, l ≠ [] → (l.map f).getLastD d = f (l.getLastD d') := by
  intro l
  induction l with
  | nil => intro h; exact absurd rfl h
  | cons x xs ih =>
    intro _
    cases xs with
    | nil => simp
    | cons y ys =>
      rw [List.map_cons, List.getLastD_cons, List.getLastD_cons]
      exact ih (by simp)

theorem joinCloseMask_getLastD {g0 g1 : GTIList} (h0 : g0 ≠ []) :
    (joinCloseMask g0 g1).getLastD false = true := by
  unfold joinCloseMask
  have hev : joinEvents g0 g1 ≠ [] := joinEvents_ne_nil g1 h0
  have hty : (joinEvents g0 g1).map Prod.snd ≠ [] := by
    simpa using hev
  have hcs : cumsum ((joinEvents g0 g1).map Prod.snd) ≠ [] :=
    cumsumFrom_ne_nil 0 hty
  rw [getLastD_map_eq (fun s => s == 0) false 0 _ hcs]
  unfold cumsum
  rw [getLastD_cumsumFrom _ 0 0 hty, joinEvents_snd_sum]
  simp

theorem np_roll1_eq {l : List Bool} (hne : l ≠ [])
    (h : l.getLastD false = true) : np_roll1 l = true :: l.dropLast := by
  cases l with
  | nil => exact absurd rfl hne
  | cons x xs =>
    rw [List.getLastD_cons] at h
    show (xs.getLastD x) :: (x :: xs).dropLast = true :: (x :: xs).dropLast
    rw [h]

theorem sortByKey_sorted {α : Type} (key : α → ℚ) (l : List α) :
    List.Pairwise (fun a b => key a ≤ key b) (sortByKey key l) :=
  List.sorted_insertionSort (leKey key) l

theorem sortByKey_eq_of_pairwise {l : List ℚ}
    (h : List.Pairwise (fun a b : ℚ => a ≤ b) l) : sortByKey id l = l := by
  unfold sortByKey
  exact List.Sorted.insertionSort_eq
    (show List.Sorted (leKey (id : ℚ → ℚ)) l from h.imp (fun hab => hab))

theorem joinEvents_fst_pairwise (g0 g1 : GTIList) :
    List.Pairwise (fun a b : ℚ => a ≤ b) ((joinEvents g0 g1).map Prod.fst) :=
  List.pairwise_map.2 (sortByKey_sorted (fun p : ℚ × ℤ => p.1) _)

/-- C4: on validated, mutually overlapping lists, `join_gtis` is exactly
the signed-event sweep of the claim: a merged interval closes where the
cumulative sum over the sorted boundaries returns to zero, and the
boundary after each closing point (the first boundary for the first
interval) starts the next merged interval; and
`join_gtis([[0,5]], [[3,8]]) = [[0,8]]`. -/
theorem join_gtis_overlap_eq (g0 g1 : GTIList)
    (hsep : check_separate g0 g1 = false) :
    join_gtis g0 g1 = (joinStartTimes g0 g1).zip (joinCloseTimes g0 g1) := by
  have h0 : g0 ≠ [] := check_separate_false_left hsep
  unfold join_gtis
  rw [hsep]
  simp only [Bool.false_eq_true, if_false]
  have hmask : np_roll1
      ((cumsum ((joinEvents g0 g1).map Prod.snd)).map (fun s => s == 0)) =
      true :: (joinCloseMask g0 g1).dropLast := by
    have hev : joinEvents g0 g1 ≠ [] := joinEvents_ne_nil g1 h0
    have hty : (joinEvents g0 g1).map Prod.snd ≠ [] := by simpa using hev
    have hcs : cumsum ((joinEvents g0 g1).map Prod.snd) ≠ [] :=
      cumsumFrom_ne_nil 0 hty
    have hmne : joinCloseMask g0 g1 ≠ [] := by
      unfold joinCloseMask
      simpa using hcs
    exact np_roll1_eq hmne (joinCloseMask_getLastD h0)
  rw [hmask]
  have hpw := joinEvents_fst_pairwise g0 g1
  have hstart : sortByKey id
      (maskSel ((joinEvents g0 g1).map Prod.fst)
        (true :: (joinCloseMask g0 g1).dropLast)) = joinStartTimes g0 g1 := by
    unfold joinStartTimes
    exact sortByKey_eq_of_pairwise
      (List.Pairwise.sublist (maskSel_sublist _ _) hpw)
  have hclose : sortByKey id
      (maskSel ((joinEvents g0 g1).map Prod.fst) (joinCloseMask g0 g1)) =
      joinCloseTimes g0 g1 := by
    unfold joinCloseTimes
    exact sortByKey_eq_of_pairwise
      (List.Pairwise.sublist (maskSel_sublist _ _) hpw)
  rw [← hstart, ← hclose]
  rfl

/-- C4: on validated, mutually overlapping lists, `join_gtis` is exactly
the signed-event sweep of the claim: a merged interval closes where the
cumulative sum over the sorted boundaries returns to zero, and the
boundary after each closing point (the first boundary for the first
interval) starts the next merged interval; and
`join_gtis([[0,5]], [[3,8]]) = [[0,8]]`. -/
theorem c4_join_overlap_spec :
    join_gtis [(0, 5)] [(3, 8)] = [(0, 8)] ∧
    ∀ g0 g1 : GTIList, gtiOk g0 = true → gtiOk g1 = true →
      check_separate g0 g1 = false →
      join_gtis g0 g1 = (joinStartTimes g0 g1).zip (joinCloseTimes g0 g1) := by
  constructor
  · norm_num [join_gtis, joinEvents, sortByKey, List.insertionSort,
      List.orderedInsert, leKey, check_separate, qle, List.flatMap, cumsum,
      cumsumFrom, maskSel, np_roll1, List.filter]
  · intro g0 g1 _ _ hsep
    exact join_gtis_overlap_eq g0 g1 hsep

/-- Witness for C4 at `g0 = [[0,5]]`, `g1 = [[3,8]]`. -/
theorem c4_join_overlap_spec_witness :
    gtiOk [((0 : ℚ), (5 : ℚ))] = true ∧
    gtiOk [((3 : ℚ), (8 : ℚ))] = true ∧
    check_separate [((0 : ℚ), (5 : ℚ))] [((3 : ℚ), (8 : ℚ))] = false ∧
    join_gtis [(0, 5)] [(3, 8)] =
      (joinStartTimes [(0, 5)] [(3, 8)]).zip (joinCloseTimes [(0, 5)] [(3, 8)]) :=
  ⟨by norm_num [gtiOk, qle], by norm_num [gtiOk, qle],
    by norm_num [check_separate, qle],
    c4_join_overlap_spec.2 [(0, 5)] [(3, 8)] (by norm_num [gtiOk, qle])
      (by norm_num [gtiOk, qle]) (by norm_num [check_separate, qle])⟩

theorem zip_tail_all_iff_chain (g : GTIList) :
    ((g.zip g.tail).all (fun pq => qle pq.1.2 pq.2.1) = true) ↔
      List.Chain' (fun p q : ℚ × ℚ => p.2 ≤ q.1) g := by
  rw [List.all_eq_true, List.chain'_iff_get]
  constructor
  · intro h i hi
    have hi1 : i + 1 < g.length := by omega
    have := h (g.get ⟨i, Nat.lt_of_succ_lt hi1⟩, g.get ⟨i + 1, hi1⟩)
      (mem_zip_tail_iff.2 ⟨i, hi1, rfl⟩)
    rw [qle_eq_true] at this
    exact this
  · intro h pq hpq
    rcases mem_zip_tail_iff.1 hpq with ⟨i, hi, rfl⟩
    rw [qle_eq_true]
    exact h i (by omega)

theorem gtiOk_iff_P (g : GTIList) : gtiOk g = true ↔ gtiOkP g := by
  unfold gtiOk gtiOkP
  rw [Bool.and_eq_true, List.all_eq_true, zip_tail_all_iff_chain]
  simp only [qle_eq_true]

theorem np_argmax_lt_length :
    ∀ (n : ℕ) (l : List ℚ), l.length ≤ n → l ≠ [] → np_argmax l < l.length := by
  intro n
  induction n with
  | zero =>
    intro l hl hne
    cases l with
    | nil => exact absurd rfl hne
    | cons x xs => simp at hl
  | succ n ih =>
    intro l hl hne
    match l with
    | [] => exact absurd rfl hne
    | [x] => simp [np_argmax]
    | x :: y :: ys =>
      rw [np_argmax]
      split
      · have := ih (y :: ys) (by simpa using Nat.le_of_succ_le_succ hl) (by simp)
        simpa using Nat.succ_lt_succ this
      · simp

theorem getD_argmax_mem {l : List ℚ} (h : l ≠ []) :
    l.getD (np_argmax l) 0 ∈ l := by
  rw [List.getD_eq_getElem _ _ (np_argmax_lt_length l.length l le_rfl h)]
  exact List.getElem_mem _

theorem gtiOkP_append_singleton {acc : GTIList} {s e : ℚ}
    (hacc : gtiOkP acc) (hse : s ≤ e) (hlast : ∀ p ∈ acc, p.2 ≤ s) :
    gtiOkP (acc ++ [(s, e)]) := by
  constructor
  · intro p hp
    rcases List.mem_append.1 hp with hp | hp
    · exact hacc.1 p hp
    · rcases List.mem_singleton.1 hp with rfl
      exact hse
  · rw [List.chain'_append]
    refine ⟨hacc.2, List.chain'_singleton _, ?_⟩
    intro x hx y hy
    rcases List.mem_getLast?_eq_getLast hx with ⟨hne, rfl⟩
    rw [List.head?_cons, Option.mem_some_iff] at hy
    subst hy
    exact hlast _ (List.getLast_mem hne)

theorem crossCore_inv (sT sO eO : List ℚ) (st : CrossState) (e : ℚ)
    (h1 : gtiOkP st.acc) (h2 : ∀ p ∈ st.acc, p.2 ≤ st.lastEnd) :
    gtiOkP (crossCore sT sO eO st e).acc ∧
      ∀ p ∈ (crossCore sT sO eO st e).acc,
        p.2 ≤ (crossCore sT sO eO st e).lastEnd := by
  unfold crossCore
  dsimp only
  split_ifs with hempty hle hcond
  · exact ⟨h1, h2⟩
  · exact ⟨h1, h2⟩
  · exact ⟨h1, h2⟩
  · rw [Bool.or_eq_true, not_or] at hempty
    have hfT : sT.filter (fun x => qlt x e) ≠ [] := by
      intro hnil
      exact hempty.1 (by rw [hnil]; rfl)
    have hfO : sO.filter (fun x => qlt x e) ≠ [] := by
      intro hnil
      exact hempty.2 (by rw [hnil]; rfl)
    have hstv : (sT.filter (fun x => qlt x e)).getD
        (np_argmax (sT.filter (fun x => qlt x e))) 0 < e := by
      have hmem := getD_argmax_mem hfT
      have := List.of_mem_filter hmem
      rw [qlt_eq_true] at this
      exact this
    have hsov : (sO.filter (fun x => qlt x e)).getD
        (np_argmax (sO.filter (fun x => qlt x e))) 0 < e := by
      have hmem := getD_argmax_mem hfO
      have := List.of_mem_filter hmem
      rw [qlt_eq_true] at this
      exact this
    have hs := max_lt hstv hsov
    push_neg at hle
    constructor
    · exact gtiOkP_append_singleton h1 (le_of_lt hs)
        (fun p hp => le_of_lt (lt_of_le_of_lt (h2 p hp) hle))
    · intro p hp
      rcases List.mem_append.1 hp with hp | hp
      · exact le_of_lt (lt_of_le_of_lt (lt_of_le_of_lt (h2 p hp) hle).le hs)
      · rcases List.mem_singleton.1 hp with rfl
        exact le_rfl

theorem crossStep_inv (s0 s1 e0 e1 : List ℚ) (st : CrossState)
    (ev : ℚ × ℚ × Bool) (h1 : gtiOkP st.acc)
    (h2 : ∀ p ∈ st.acc, p.2 ≤ st.lastEnd) :
    gtiOkP (crossStep s0 s1 e0 e1 st ev).acc ∧
      ∀ p ∈ (crossStep s0 s1 e0 e1 st ev).acc,
        p.2 ≤ (crossStep s0 s1 e0 e1 st ev).lastEnd := by
  unfold crossStep
  by_cases htag : ev.2.2 = true
  · rw [if_pos htag]
    exact crossCore_inv s1 s0 e0 st ev.1 h1 h2
  · rw [if_neg htag]
    exact crossCore_inv s0 s1 e1 st ev.1 h1 h2

theorem crossFold_inv (s0 s1 e0 e1 : List ℚ) :
    ∀ (evs : List (ℚ × ℚ × Bool)) (st : CrossState),
      gtiOkP st.acc → (∀ p ∈ st.acc, p.2 ≤ st.lastEnd) →
      gtiOkP (evs.foldl (crossStep s0 s1 e0 e1) st).acc := by
  intro evs
  induction evs with
  | nil => intro st hst _; exact hst
  | cons ev rest ih =>
    intro st h1 h2
    rw [List.foldl_cons]
    have := crossStep_inv s0 s1 e0 e1 st ev h1 h2
    exact ih _ this.1 this.2

/-- Invariant for the intersection (holds for all inputs: the sweep
itself maintains it). -/
theorem cross_two_gtis_ok (g0 g1 : GTIList) :
    gtiOk (cross_two_gtis g0 g1) = true := by
  unfold cross_two_gtis
  rcases hev : crossEvents g0 g1 with _ | ⟨t, rest⟩
  · rw [gtiOk_iff_P]
    exact ⟨by simp, List.chain'_nil⟩
  · rw [gtiOk_iff_P]
    exact crossFold_inv _ _ _ _ (t :: rest) ⟨t.2.1 - 1, []⟩
      ⟨by simp, List.chain'_nil⟩ (by simp)

theorem length_cumsumFrom : ∀ (l : List ℤ) (a : ℤ),
    (cumsumFrom a l).length = l.length := by
  intro l
  induction l with
  | nil => intro a; rfl
  | cons x xs ih =>
    intro a
    rw [cumsumFrom, List.length_cons, List.length_cons, ih]

theorem maskSel_shift_eq :
    ∀ (ts : List ℚ) (m : List Bool) (inc : Bool), ts.length ≤ m.length →
      maskSel ts (inc :: m.dropLast) = selShift inc ts m := by
  intro ts
  induction ts with
  | nil => intro m inc _; rfl
  | cons t ts ih =>
    intro m inc hlen
    cases m with
    | nil => simp at hlen
    | cons c m' =>
      cases m' with
      | nil =>
        have hts : ts = [] := by
          rw [List.length_cons, List.length_cons, List.length_nil] at hlen
          exact List.length_eq_zero.1 (by omega)
        subst hts
        cases inc <;> rfl
      | cons d m'' =>
        have hdl : (c :: d :: m'').dropLast = c :: (d :: m'').dropLast := rfl
        rw [hdl, maskSel_cons]
        have hrec := ih (d :: m'') c (by
          simp only [List.length_cons] at hlen ⊢
          omega)
        rw [hrec]
        cases inc with
        | false => rfl
        | true => rfl

theorem goodPairs_nil (lo : ℚ) : goodPairs lo [] :=
  ⟨List.chain'_nil, by simp⟩

theorem goodPairs_cons {lo a b : ℚ} {ps : GTIList} (hab : a ≤ b)
    (hla : lo ≤ a) (hps : goodPairs b ps) :
    goodPairs lo ((a, b) :: ps) := by
  constructor
  · rw [List.chain'_cons']
    refine ⟨?_, hps.1⟩
    intro y hy
    have hym : y ∈ ps := by
      cases ps with
      | nil => simp at hy
      | cons q qs =>
        rw [List.head?_cons, Option.mem_some_iff] at hy
        subst hy
        exact List.mem_cons_self _ _
    exact (hps.2 y hym).2
  · intro p hp
    rcases List.mem_cons.1 hp with rfl | hp
    · exact ⟨hab, hla⟩
    · exact ⟨(hps.2 p hp).1, le_trans (le_trans hla hab) (hps.2 p hp).2⟩

theorem zipSel_good :
    ∀ (n : ℕ) (ts : List ℚ), ts.length ≤ n →
      ∀ (m : List Bool) (lo : ℚ),
        List.Pairwise (fun a b : ℚ => a ≤ b) ts → (∀ t ∈ ts, lo ≤ t) →
        goodPairs lo ((selShift true ts m).zip (maskSel ts m)) ∧
        ∀ pending : ℚ, (∀ t ∈ ts, pending ≤ t) → lo ≤ pending →
          goodPairs lo ((pending :: selShift false ts m).zip (maskSel ts m)) := by
  intro n
  induction n with
  | zero =>
    intro ts hlen m lo _ _
    have hts : ts = [] := List.length_eq_zero.1 (by omega)
    subst hts
    exact ⟨goodPairs_nil lo, fun pending _ _ => goodPairs_nil lo⟩
  | succ n ih =>
    intro ts hlen m lo hpw hlo
    cases ts with
    | nil => exact ⟨goodPairs_nil lo, fun pending _ _ => goodPairs_nil lo⟩
    | cons t ts' =>
      have hlen' : ts'.length ≤ n := by
        rw [List.length_cons] at hlen
        omega
      have hpw' : List.Pairwise (fun a b : ℚ => a ≤ b) ts' :=
        (List.pairwise_cons.1 hpw).2
      have hta : ∀ x ∈ ts', t ≤ x := (List.pairwise_cons.1 hpw).1
      have hlot : lo ≤ t := hlo t (List.mem_cons_self _ _)
      cases m with
      | nil =>
        rw [maskSel_nil_right]
        refine ⟨?_, ?_⟩
        · exact goodPairs_nil lo
        · intro pending _ _
          exact goodPairs_nil lo
      | cons c m' =>
        constructor
        · -- incoming roll bit is set: t starts a pair
          rw [show selShift true (t :: ts') (c :: m') = t :: selShift c ts' m'
              from by cases c <;> rfl]
          rw [maskSel_cons]
          cases c with
          | true =>
            simp only [if_pos]
            rw [List.zip_cons_cons]
            have iht := (ih ts' hlen' m' t hpw' hta).1
            exact goodPairs_cons le_rfl hlot iht
          | false =>
            simp only [Bool.false_eq_true, if_false]
            have ihp := (ih ts' hlen' m' lo hpw'
              (fun x hx => le_trans hlot (hta x hx))).2
            exact ihp t hta hlot
        · -- no incoming roll bit: a start is pending
          intro pending hpend hlp
          rw [show selShift false (t :: ts') (c :: m') = selShift c ts' m'
              from by cases c <;> rfl]
          rw [maskSel_cons]
          cases c with
          | true =>
            simp only [if_pos]
            rw [List.zip_cons_cons]
            have iht := (ih ts' hlen' m' t hpw' hta).1
            exact goodPairs_cons (hpend t (List.mem_cons_self _ _)) hlp iht
          | false =>
            simp only [Bool.false_eq_true, if_false]
            have ihp := (ih ts' hlen' m' lo hpw'
              (fun x hx => le_trans hlot (hta x hx))).2
            exact ihp pending (fun x hx => hpend x (List.mem_cons_of_mem _ hx))
              hlp

theorem join_pairs_gtiOkP (ts : List ℚ) (m : List Bool)
    (hpw : List.Pairwise (fun a b : ℚ => a ≤ b) ts)
    (hlen : ts.length ≤ m.length) :
    gtiOkP ((maskSel ts (true :: m.dropLast)).zip (maskSel ts m)) := by
  rw [maskSel_shift_eq ts m true hlen]
  cases ts with
  | nil => exact ⟨by simp [selShift], by simp [selShift, List.chain'_nil]⟩
  | cons t ts' =>
    have hbound : ∀ x ∈ t :: ts', t ≤ x := by
      intro x hx
      rcases List.mem_cons.1 hx with rfl | hx
      · exact le_rfl
      · exact List.rel_of_pairwise_cons hpw hx
    have hg := (zipSel_good (t :: ts').length (t :: ts') le_rfl m t hpw
      hbound).1
    exact ⟨fun p hp => (hg.2 p hp).1, hg.1⟩

theorem append_gtiOkP {g0 g1 : GTIList} (h0 : gtiOkP g0) (h1 : gtiOkP g1)
    (hb : endsBefore g0 g1) : gtiOkP (g0 ++ g1) := by
  constructor
  · intro p hp
    rcases List.mem_append.1 hp with hp | hp
    · exact h0.1 p hp
    · exact h1.1 p hp
  · rw [List.chain'_append]
    refine ⟨h0.2, h1.2, ?_⟩
    intro x hx y hy
    cases g0 with
    | nil => simp at hx
    | cons a as_ =>
      cases g1 with
      | nil => simp at hy
      | cons b bs =>
        rcases List.mem_getLast?_eq_getLast hx with ⟨hne, rfl⟩
        rw [List.head?_cons, Option.mem_some_iff] at hy
        subst hy
        rw [List.getLast_eq_getLastD]
        exact hb

/-- C10 counterexample: on the validated separate pair `[[5,6]]`,
`[[0,1]]` (second list earlier in time), `join_gtis` returns the
unsorted concatenation, which fails `check_gtis`. -/
theorem c10_invariant_counterexample :
    gtiOk [((5 : ℚ), (6 : ℚ))] = true ∧
    gtiOk [((0 : ℚ), (1 : ℚ))] = true ∧
    join_gtis [(5, 6)] [(0, 1)] = [(5, 6), (0, 1)] ∧
    gtiOk (join_gtis [(5, 6)] [(0, 1)]) = false := by
  have h : join_gtis [((5 : ℚ), (6 : ℚ))] [((0 : ℚ), (1 : ℚ))] =
      [(5, 6), (0, 1)] := by
    norm_num [join_gtis, check_separate, qle]
  refine ⟨by norm_num [gtiOk, qle], by norm_num [gtiOk, qle], h, ?_⟩
  rw [h]
  norm_num [gtiOk, qle]

/-- C10 amended: for validated inputs, `cross_two_gtis` always returns a
list satisfying the `check_gtis` invariant, and `join_gtis` does so
whenever the lists overlap as a whole or the first list ends at or
before the second begins; the exception forced by the counterexample is
a separate pair given with the later list first, where the unsorted
concatenation breaks sortedness. -/
theorem c10_invariant_amended :
    ∀ g0 g1 : GTIList, gtiOk g0 = true → gtiOk g1 = true →
      gtiOk (cross_two_gtis g0 g1) = true ∧
      (check_separate g0 g1 = false ∨ endsBefore g0 g1 →
        gtiOk (join_gtis g0 g1) = true) := by
  intro g0 g1 h0 h1
  refine ⟨cross_two_gtis_ok g0 g1, ?_⟩
  intro hc
  by_cases hsep : check_separate g0 g1 = true
  · have hb : endsBefore g0 g1 := by
      rcases hc with hc | hc
      · rw [hc] at hsep
        exact absurd hsep (by simp)
      · exact hc
    unfold join_gtis
    rw [if_pos hsep]
    rw [gtiOk_iff_P]
    exact append_gtiOkP ((gtiOk_iff_P g0).1 h0) ((gtiOk_iff_P g1).1 h1) hb
  · have hsepf : check_separate g0 g1 = false := by
      rwa [Bool.not_eq_true] at hsep
    rw [join_gtis_overlap_eq g0 g1 hsepf]
    rw [gtiOk_iff_P]
    unfold joinStartTimes joinCloseTimes
    apply join_pairs_gtiOkP
    · exact joinEvents_fst_pairwise g0 g1
    · unfold joinCloseMask cumsum
      rw [List.length_map, List.length_map, length_cumsumFrom, List.length_map]

/-- Witness for C10 amended at `g0 = [[0,5]]`, `g1 = [[3,8]]`. -/
theorem c10_invariant_amended_witness :
    gtiOk [((0 : ℚ), (5 : ℚ))] = true ∧
    gtiOk [((3 : ℚ), (8 : ℚ))] = true ∧
    (gtiOk (cross_two_gtis [(0, 5)] [(3, 8)]) = true ∧
      (check_separate [((0 : ℚ), (5 : ℚ))] [((3 : ℚ), (8 : ℚ))] = false ∨
          endsBefore [((0 : ℚ), (5 : ℚ))] [((3 : ℚ), (8 : ℚ))] →
        gtiOk (join_gtis [(0, 5)] [(3, 8)]) = true)) :=
  ⟨by norm_num [gtiOk, qle], by norm_num [gtiOk, qle],
    c10_invariant_amended [(0, 5)] [(3, 8)] (by norm_num [gtiOk, qle])
      (by norm_num [gtiOk, qle])⟩

/-! ### Claim C1: the `cross_two_gtis` sweep rule -/

theorem foldl_max_max : ∀ (l : List ℚ) (a b : ℚ),
    List.foldl max (max a b) l = max a (List.foldl max b l) := by
  intro l
  induction l with
  | nil => intro a b; rfl
  | cons x xs ih =>
    intro a b
    rw [List.foldl_cons, List.foldl_cons, max_assoc, ih]

theorem maxQ_cons {x : ℚ} {l : List ℚ} (h : l ≠ []) :
    maxQ (x :: l) = max x (maxQ l) := by
  cases l with
  | nil => exact absurd rfl h
  | cons y ys =>
    show List.foldl max x (y :: ys) = max x (maxQ (y :: ys))
    rw [List.foldl_cons]
    exact foldl_max_max ys x y

theorem le_maxQ_of_mem : ∀ {l : List ℚ} {y : ℚ}, y ∈ l → y ≤ maxQ l := by
  intro l
  induction l with
  | nil => intro y hy; simp at hy
  | cons x xs ih =>
    intro y hy
    cases xs with
    | nil =>
      rcases List.mem_singleton.1 hy with rfl
      exact le_rfl
    | cons z zs =>
      rw [maxQ_cons (by simp)]
      rcases List.mem_cons.1 hy with rfl | hy
      · exact le_max_left _ _
      · exact le_trans (ih hy) (le_max_right _ _)

theorem getD_argmax_eq_maxQ :
    ∀ (n : ℕ) (l : List ℚ), l.length ≤ n → l ≠ [] →
      l.getD (np_argmax l) 0 = maxQ l := by
  intro n
  induction n with
  | zero =>
    intro l hl hne
    cases l with
    | nil => exact absurd rfl hne
    | cons x xs => simp at hl
  | succ n ih =>
    intro l hl hne
    match l with
    | [] => exact absurd rfl hne
    | [x] => rfl
    | x :: y :: ys =>
      rw [np_argmax]
      have htail := ih (y :: ys) (by simpa using Nat.le_of_succ_le_succ hl)
        (by simp)
      rw [maxQ_cons (show (y :: ys) ≠ [] by simp)]
      split
      · next hlt =>
        rw [htail] at hlt
        show (y :: ys).getD (np_argmax (y :: ys)) 0 = max x (maxQ (y :: ys))
        rw [htail, max_eq_right (le_of_lt hlt)]
      · next hge =>
        rw [htail] at hge
        push_neg at hge
        show x = max x (maxQ (y :: ys))
        rw [max_eq_left hge]

theorem np_argmax_eq_findIdx :
    ∀ (n : ℕ) (l : List ℚ), l.length ≤ n → l ≠ [] →
      np_argmax l = l.findIdx (fun x => qle (maxQ l) x) := by
  intro n
  induction n with
  | zero =>
    intro l hl hne
    cases l with
    | nil => exact absurd rfl hne
    | cons x xs => simp at hl
  | succ n ih =>
    intro l hl hne
    match l with
    | [] => exact absurd rfl hne
    | [x] =>
      show (0 : ℕ) = List.findIdx (fun y => qle (maxQ [x]) y) [x]
      rw [List.findIdx_cons]
      have : qle (maxQ [x]) x = true := by
        rw [qle_eq_true]
        exact le_rfl
      rw [this]
      rfl
    | x :: y :: ys =>
      have htailth := ih (y :: ys) (by simpa using Nat.le_of_succ_le_succ hl)
        (by simp)
      have htailval := getD_argmax_eq_maxQ (y :: ys).length (y :: ys) le_rfl
        (by simp)
      rw [np_argmax]
      rw [maxQ_cons (show (y :: ys) ≠ [] by simp)]
      split
      · next hlt =>
        rw [htailval] at hlt
        rw [max_eq_right (le_of_lt hlt)]
        rw [List.findIdx_cons]
        have hx : qle (maxQ (y :: ys)) x = false := by
          rw [qle]
          rw [if_neg (not_le.2 hlt)]
        rw [hx]
        show np_argmax (y :: ys) + 1 =
          List.findIdx (fun z => qle (maxQ (y :: ys)) z) (y :: ys) + 1
        rw [htailth]
      · next hge =>
        rw [htailval] at hge
        push_neg at hge
        rw [max_eq_left hge]
        rw [List.findIdx_cons]
        have hx : qle (maxQ (x :: y :: ys)) x = true := by
          rw [qle_eq_true, maxQ_cons (show (y :: ys) ≠ [] by simp),
            max_eq_left hge]
        rw [maxQ_cons (show (y :: ys) ≠ [] by simp), max_eq_left hge] at hx
        rw [hx]
        rfl

/-- C1 counterexample: on the validated pair `[[5,10]]`, `[[0,2]]` the
claim's rule accepts the candidate `[5,10]` (the other series closes
nothing strictly inside it), but the code rejects it — `cond2` vetoes a
candidate when the other series' interval holding the latest start
before `e` has already closed strictly before the candidate start — and
the code is right: the two lists share no interval. -/
theorem c1_cross_counterexample :
    gtiOk [((5 : ℚ), (10 : ℚ))] = true ∧
    gtiOk [((0 : ℚ), (2 : ℚ))] = true ∧
    cross_two_gtis [(5, 10)] [(0, 2)] = [] ∧
    c1ClaimRule [(5, 10)] [(0, 2)] = [(5, 10)] := by
  refine ⟨by norm_num [gtiOk, qle], by norm_num [gtiOk, qle], ?_, ?_⟩
  · norm_num [cross_two_gtis, crossEvents, sortByKey, List.insertionSort,
      List.orderedInsert, leKey, crossStep, crossCore, startsOf, endsOf, qlt,
      np_argmax, List.filter]
  · norm_num [c1ClaimRule, c1ClaimStep, crossEvents, sortByKey,
      List.insertionSort, List.orderedInsert, leKey, startsOf, endsOf, qlt,
      qle, np_argmax, maxQ, List.filter]

theorem crossCore_spec_rel (sT sO eO : List ℚ) (e x : ℚ)
    (stc : CrossState) (sts : Option ℚ × GTIList)
    (hrel : crossRel x stc sts)
    (hinit : sT.filter (fun y => qlt y e) ≠ [] →
      sO.filter (fun y => qlt y e) ≠ [] →
      x - 1 < max (maxQ (sT.filter (fun y => qlt y e)))
        (maxQ (sO.filter (fun y => qlt y e)))) :
    crossRel x (crossCore sT sO eO stc e) (specCrossStep sT sO eO sts e) := by
  unfold crossCore specCrossStep
  dsimp only
  by_cases hempty : ((sT.filter (fun y => qlt y e)).isEmpty ||
      (sO.filter (fun y => qlt y e)).isEmpty) = true
  · rw [if_pos hempty, if_pos hempty]
    exact hrel
  · rw [if_neg hempty, if_neg hempty]
    rw [Bool.or_eq_true, not_or] at hempty
    have hfT : sT.filter (fun y => qlt y e) ≠ [] := by
      intro hnil
      exact hempty.1 (by rw [hnil]; rfl)
    have hfO : sO.filter (fun y => qlt y e) ≠ [] := by
      intro hnil
      exact hempty.2 (by rw [hnil]; rfl)
    have hvT : (sT.filter (fun y => qlt y e)).getD
        (np_argmax (sT.filter (fun y => qlt y e))) 0 =
        maxQ (sT.filter (fun y => qlt y e)) :=
      getD_argmax_eq_maxQ _ _ le_rfl hfT
    have hvO : (sO.filter (fun y => qlt y e)).getD
        (np_argmax (sO.filter (fun y => qlt y e))) 0 =
        maxQ (sO.filter (fun y => qlt y e)) :=
      getD_argmax_eq_maxQ _ _ le_rfl hfO
    have hidx : np_argmax (sO.filter (fun y => qlt y e)) =
        (sO.filter (fun y => qlt y e)).findIdx
          (fun y => qle (maxQ (sO.filter (fun y => qlt y e))) y) :=
      np_argmax_eq_findIdx _ _ le_rfl hfO
    rw [hvT, hvO, hidx]
    have hs := hinit hfT hfO
    rcases hrel.2 with ⟨hnone, hle⟩ | ⟨le, hsome, hle⟩
    · -- nothing emitted yet: neither side skips on the threshold
      rw [hnone]
      rw [hle]
      rw [if_neg (not_le.2 hs)]
      have : (match (none : Option ℚ) with
          | some le => qle (max (maxQ (sT.filter (fun y => qlt y e)))
              (maxQ (sO.filter (fun y => qlt y e)))) le
          | none => false) = false := rfl
      rw [this]
      simp only [Bool.false_eq_true, if_false]
      by_cases hcond : (eO.any (fun y =>
          qlt (max (maxQ (sT.filter (fun y => qlt y e)))
            (maxQ (sO.filter (fun y => qlt y e)))) y && qlt y e) ||
          qlt (eO.getD ((sO.filter (fun y => qlt y e)).findIdx
            (fun y => qle (maxQ (sO.filter (fun y => qlt y e))) y)) 0)
            (max (maxQ (sT.filter (fun y => qlt y e)))
              (maxQ (sO.filter (fun y => qlt y e))))) = true
      · rw [if_pos hcond, if_pos hcond]
        exact ⟨hrel.1, Or.inl ⟨hnone, hle⟩⟩
      · rw [if_neg hcond, if_neg hcond]
        exact ⟨by rw [hrel.1], Or.inr ⟨e, rfl, rfl⟩⟩
    · -- a stop was already emitted: the thresholds agree
      rw [hsome, hle]
      by_cases hth : (max (maxQ (sT.filter (fun y => qlt y e)))
          (maxQ (sO.filter (fun y => qlt y e)))) ≤ le
      · rw [if_pos hth]
        have : (match (some le : Option ℚ) with
            | some le' => qle (max (maxQ (sT.filter (fun y => qlt y e)))
                (maxQ (sO.filter (fun y => qlt y e)))) le'
            | none => false) = true := by
          rw [qle_eq_true]
          exact hth
        rw [this]
        simp only [if_true]
        exact ⟨hrel.1, Or.inr ⟨le, hsome, hle⟩⟩
      · rw [if_neg hth]
        have : (match (some le : Option ℚ) with
            | some le' => qle (max (maxQ (sT.filter (fun y => qlt y e)))
                (maxQ (sO.filter (fun y => qlt y e)))) le'
            | none => false) = false := by
          simp only [qle]
          rw [if_neg hth]
        rw [this]
        simp only [Bool.false_eq_true, if_false]
        by_cases hcond : (eO.any (fun y =>
            qlt (max (maxQ (sT.filter (fun y => qlt y e)))
              (maxQ (sO.filter (fun y => qlt y e)))) y && qlt y e) ||
            qlt (eO.getD ((sO.filter (fun y => qlt y e)).findIdx
              (fun y => qle (maxQ (sO.filter (fun y => qlt y e))) y)) 0)
              (max (maxQ (sT.filter (fun y => qlt y e)))
                (maxQ (sO.filter (fun y => qlt y e))))) = true
        · rw [if_pos hcond, if_pos hcond]
          exact ⟨hrel.1, Or.inr ⟨le, hsome, hle⟩⟩
        · rw [if_neg hcond, if_neg hcond]
          exact ⟨by rw [hrel.1], Or.inr ⟨e, rfl, rfl⟩⟩

/-- Stability of the sort: the head of the sorted list is the first
element of the input attaining the minimal key. -/
theorem sortByKey_head_stable {α : Type} (key : α → ℚ) :
    ∀ (l : List α) (t : α) (rest : List α), sortByKey key l = t :: rest →
      ∃ l₁ l₂, l = l₁ ++ t :: l₂ ∧ ∀ y ∈ l₁, key t < key y := by
  intro l
  induction l with
  | nil =>
    intro t rest h
    simp [sortByKey, List.insertionSort] at h
  | cons x xs ih =>
    intro t rest h
    rw [sortByKey, List.insertionSort] at h
    cases hs : List.insertionSort (leKey key) xs with
    | nil =>
      rw [hs] at h
      simp only [List.orderedInsert] at h
      rcases List.cons_eq_cons.1 h with ⟨rfl, _⟩
      exact ⟨[], xs, rfl, by simp⟩
    | cons h' rest' =>
      rw [hs] at h
      rw [List.orderedInsert] at h
      by_cases hcmp : leKey key x h'
      · rw [if_pos hcmp] at h
        rcases List.cons_eq_cons.1 h with ⟨rfl, _⟩
        exact ⟨[], xs, rfl, by simp⟩
      · rw [if_neg hcmp] at h
        obtain ⟨hh, _⟩ := List.cons_eq_cons.1 h
        subst hh
        rcases ih h' rest' (by rw [sortByKey]; exact hs) with ⟨l₁, l₂, hxs, hmin⟩
        refine ⟨x :: l₁, l₂, by rw [hxs, List.cons_append], ?_⟩
        intro y hy
        rcases List.mem_cons.1 hy with rfl | hy
        · exact lt_of_not_le hcmp
        · exact hmin y hy

/-- The head of the sorted list has the minimal key. -/
theorem sortByKey_head_min {α : Type} (key : α → ℚ) (l : List α)
    (t : α) (rest : List α) (h : sortByKey key l = t :: rest) :
    ∀ y ∈ l, key t ≤ key y := by
  intro y hy
  have hperm : (sortByKey key l).Perm l := List.perm_insertionSort _ _
  have hy' : y ∈ sortByKey key l := hperm.mem_iff.2 hy
  rw [h] at hy'
  rcases List.mem_cons.1 hy' with rfl | hy'
  · exact le_rfl
  · have hsorted := sortByKey_sorted key l
    rw [h] at hsorted
    exact List.rel_of_pairwise_cons hsorted hy'

theorem gtiOkP_pairwise :
    ∀ {g : GTIList}, gtiOkP g →
      List.Pairwise (fun p q : ℚ × ℚ => p.2 ≤ q.1) g := by
  intro g
  induction g with
  | nil => intro _; exact List.Pairwise.nil
  | cons p rest ih =>
    intro h
    have hint := h.1
    have hchain := h.2
    rw [List.chain'_cons'] at hchain
    have hrest : gtiOkP rest :=
      ⟨fun q hq => hint q (List.mem_cons_of_mem _ hq), hchain.2⟩
    have hpwrest := ih hrest
    refine List.pairwise_cons.2 ⟨?_, hpwrest⟩
    intro q hq
    cases rest with
    | nil => simp at hq
    | cons r rest' =>
      have hpr : p.2 ≤ r.1 := hchain.1 r (by rw [List.head?_cons]; rfl)
      rcases List.mem_cons.1 hq with rfl | hq
      · exact hpr
      · have hr12 : r.1 ≤ r.2 := hint r (by simp)
        have := List.rel_of_pairwise_cons hpwrest hq
        exact le_trans hpr (le_trans hr12 this)

theorem first_start_le {p : ℚ × ℚ} {rest : GTIList}
    (h : gtiOkP (p :: rest)) : ∀ r ∈ p :: rest, p.1 ≤ r.1 := by
  intro r hr
  rcases List.mem_cons.1 hr with rfl | hr
  · exact le_rfl
  · have hpw := gtiOkP_pairwise h
    have h2 := List.rel_of_pairwise_cons hpw hr
    exact le_trans (h.1 p (List.mem_cons_self _ _)) h2

theorem tag_of_mem_map {g : GTIList} {b : Bool} {y : ℚ × ℚ × Bool}
    (hy : y ∈ g.map (fun p => (p.2, p.1, b))) : y.2.2 = b := by
  rcases List.mem_map.1 hy with ⟨p, _, rfl⟩
  rfl

theorem start_of_mem_map {g : GTIList} {b : Bool} {y : ℚ × ℚ × Bool}
    (hy : y ∈ g.map (fun p => (p.2, p.1, b))) : (y.2.1, y.1) ∈ g := by
  rcases List.mem_map.1 hy with ⟨p, hp, rfl⟩
  exact hp

/-- Split of the tagged concatenation around the head of the sorted
list: the head belongs to the series named by its tag, and everything
before it within that series is part of the strictly-greater prefix. -/
theorem concat_split_at_head {A B : List (ℚ × ℚ × Bool)}
    {t : ℚ × ℚ × Bool} {l₁ l₂ : List (ℚ × ℚ × Bool)}
    (h : A ++ B = l₁ ++ t :: l₂)
    (htagA : ∀ y ∈ A, y.2.2 = false) (htagB : ∀ y ∈ B, y.2.2 = true) :
    (t.2.2 = false ∧ ∃ post, A = l₁ ++ t :: post) ∨
    (t.2.2 = true ∧ ∃ pre post, B = pre ++ t :: post ∧ ∀ y ∈ pre, y ∈ l₁) := by
  rcases List.append_eq_append_iff.1 h with ⟨a', hl₁, hB⟩ | ⟨c', hA, hc⟩
  · right
    refine ⟨htagB t ?_, a', l₂, hB, ?_⟩
    · rw [hB]
      exact List.mem_append.2 (Or.inr (List.mem_cons_self _ _))
    · intro y hy
      rw [hl₁]
      exact List.mem_append.2 (Or.inr hy)
  · cases c' with
    | nil =>
      right
      rw [List.nil_append] at hc
      refine ⟨htagB t ?_, [], l₂, hc.symm, by simp⟩
      rw [← hc]
      exact List.mem_cons_self _ _
    | cons u c'' =>
      left
      have hut : u = t := (List.cons_eq_cons.1 hc.symm).1
      subst hut
      refine ⟨htagA u ?_, c'', hA⟩
      rw [hA]
      exact List.mem_append.2 (Or.inr (List.mem_cons_self _ _))

/-- If the head of the sorted events is a degenerate triple of its own
series (start = stop) and every earlier event has a strictly larger
stop, then that series starts at or after the head's stop. -/
theorem series_first_min {g : GTIList} (hg : gtiOkP g) {b : Bool}
    {pre post : List (ℚ × ℚ × Bool)} {t : ℚ × ℚ × Bool}
    (hmap : g.map (fun p => (p.2, p.1, b)) = pre ++ t :: post)
    (hpre : ∀ y ∈ pre, t.1 < y.1) (hxe : t.2.1 = t.1) :
    ∀ r ∈ g, t.1 ≤ r.1 := by
  rcases List.map_eq_append_iff.1 hmap with ⟨q₁, q₂, hq, hm1, hm2⟩
  rcases List.map_eq_cons_iff.1 hm2 with ⟨p, q₂', hq₂, hfp, _⟩
  have hp1 : p.1 = t.2.1 := by rw [← hfp]
  have hp2 : p.2 = t.1 := by rw [← hfp]
  cases q₁ with
  | nil =>
    intro r hr
    have hgp : g = p :: q₂' := by rw [hq, hq₂, List.nil_append]
    have hfs := first_start_le (show gtiOkP (p :: q₂') by rw [← hgp]; exact hg)
      r (by rw [← hgp]; exact hr)
    rw [hp1, hxe] at hfs
    exact hfs
  | cons r₀ q₁' =>
    exfalso
    have hr₀pre : (r₀.2, r₀.1, b) ∈ pre := by
      rw [← hm1]
      exact List.mem_map.2 ⟨r₀, List.mem_cons_self _ _, rfl⟩
    have hgt : t.1 < r₀.2 := hpre _ hr₀pre
    have hpw := gtiOkP_pairwise hg
    rw [hq, hq₂] at hpw
    rw [List.pairwise_append] at hpw
    have := hpw.2.2 r₀ (List.mem_cons_self _ _) p (List.mem_cons_self _ _)
    rw [hp1, hxe] at this
    exact absurd (lt_of_lt_of_le hgt this) (lt_irrefl _)

theorem cross_init_ok {g0 g1 : GTIList} (h0 : gtiOkP g0) (h1 : gtiOkP g1)
    {t : ℚ × ℚ × Bool} {rest : List (ℚ × ℚ × Bool)}
    (hev : crossEvents g0 g1 = t :: rest) :
    ∀ ev ∈ crossEvents g0 g1, initOK (startsOf g0) (startsOf g1) t.2.1 ev := by
  intro ev hevmem hf0 hf1
  have hev' : sortByKey (fun u : ℚ × ℚ × Bool => u.1)
      ((g0.map (fun p => (p.2, p.1, false))) ++
        (g1.map (fun p => (p.2, p.1, true)))) = t :: rest := hev
  have hperm : (crossEvents g0 g1).Perm
      ((g0.map (fun p => (p.2, p.1, false))) ++
        (g1.map (fun p => (p.2, p.1, true)))) :=
    List.perm_insertionSort _ _
  have hevc : ev ∈ (g0.map (fun p => (p.2, p.1, false))) ++
      (g1.map (fun p => (p.2, p.1, true))) := hperm.mem_iff.1 hevmem
  have htc : t ∈ (g0.map (fun p => (p.2, p.1, false))) ++
      (g1.map (fun p => (p.2, p.1, true))) := by
    refine hperm.mem_iff.1 ?_
    rw [hev]
    exact List.mem_cons_self _ _
  have he₀e : t.1 ≤ ev.1 :=
    sortByKey_head_min (fun u => u.1) _ t rest hev' ev hevc
  have hxle : t.2.1 ≤ t.1 := by
    rcases List.mem_append.1 htc with ht | ht
    · exact h0.1 _ (start_of_mem_map ht)
    · exact h1.1 _ (start_of_mem_map ht)
  by_cases hxe : t.2.1 < ev.1
  · rcases List.mem_append.1 htc with ht | ht
    · have hx0 : t.2.1 ∈ startsOf g0 :=
        List.mem_map.2 ⟨(t.2.1, t.1), start_of_mem_map ht, rfl⟩
      have hxf : t.2.1 ∈ (startsOf g0).filter (fun y => qlt y ev.1) :=
        List.mem_filter.2 ⟨hx0, by rw [qlt_eq_true]; exact hxe⟩
      have hle := le_maxQ_of_mem hxf
      have : t.2.1 - 1 < t.2.1 := by linarith
      exact lt_of_lt_of_le this (le_trans hle (le_max_left _ _))
    · have hx1 : t.2.1 ∈ startsOf g1 :=
        List.mem_map.2 ⟨(t.2.1, t.1), start_of_mem_map ht, rfl⟩
      have hxf : t.2.1 ∈ (startsOf g1).filter (fun y => qlt y ev.1) :=
        List.mem_filter.2 ⟨hx1, by rw [qlt_eq_true]; exact hxe⟩
      have hle := le_maxQ_of_mem hxf
      have : t.2.1 - 1 < t.2.1 := by linarith
      exact lt_of_lt_of_le this (le_trans hle (le_max_right _ _))
  · exfalso
    push_neg at hxe
    have hxe₀ : t.2.1 = t.1 := le_antisymm hxle (le_trans he₀e hxe)
    have hee₀ : ev.1 = t.1 := le_antisymm (le_trans hxe hxle) he₀e
    rcases sortByKey_head_stable (fun u => u.1) _ t rest hev'
      with ⟨l₁, l₂, hconcat, hmin⟩
    rcases concat_split_at_head hconcat
      (fun y hy => tag_of_mem_map hy) (fun y hy => tag_of_mem_map hy)
      with ⟨_, post, hAdec⟩ | ⟨_, pre, post, hBdec, hpresub⟩
    · have hall := series_first_min h0 hAdec
        (fun y hy => hmin y ?_) hxe₀
      · refine hf0 ?_
        rw [List.filter_eq_nil_iff]
        intro y hy
        rcases List.mem_map.1 hy with ⟨r, hr, rfl⟩
        rw [Bool.not_eq_true, qlt]
        rw [if_neg]
        push_neg
        rw [hee₀]
        exact hall r hr
      · exact hy
    · have hall := series_first_min h1 hBdec
        (fun y hy => hmin y (hpresub y hy)) hxe₀
      refine hf1 ?_
      rw [List.filter_eq_nil_iff]
      intro y hy
      rcases List.mem_map.1 hy with ⟨r, hr, rfl⟩
      rw [Bool.not_eq_true, qlt]
      rw [if_neg]
      push_neg
      rw [hee₀]
      exact hall r hr

theorem crossStep_spec_rel (S0 S1 E0 E1 : List ℚ) (x : ℚ) (stc : CrossState)
    (sts : Option ℚ × GTIList) (ev : ℚ × ℚ × Bool)
    (hrel : crossRel x stc sts) (hinit : initOK S0 S1 x ev) :
    crossRel x (crossStep S0 S1 E0 E1 stc ev)
      (if ev.2.2 then specCrossStep S1 S0 E0 sts ev.1
       else specCrossStep S0 S1 E1 sts ev.1) := by
  unfold crossStep
  by_cases htag : ev.2.2 = true
  · rw [if_pos htag, if_pos htag]
    refine crossCore_spec_rel S1 S0 E0 ev.1 x stc sts hrel ?_
    intro hT hO
    rw [max_comm]
    exact hinit hO hT
  · rw [if_neg htag, if_neg htag]
    refine crossCore_spec_rel S0 S1 E1 ev.1 x stc sts hrel ?_
    intro hT hO
    exact hinit hT hO

theorem crossFold_spec_rel (S0 S1 E0 E1 : List ℚ) (x : ℚ) :
    ∀ (evs : List (ℚ × ℚ × Bool)), (∀ ev ∈ evs, initOK S0 S1 x ev) →
      ∀ (stc : CrossState) (sts : Option ℚ × GTIList), crossRel x stc sts →
      crossRel x (evs.foldl (crossStep S0 S1 E0 E1) stc)
        (evs.foldl (fun st ev =>
          if ev.2.2 then specCrossStep S1 S0 E0 st ev.1
          else specCrossStep S0 S1 E1 st ev.1) sts) := by
  intro evs
  induction evs with
  | nil => intro _ stc sts h; exact h
  | cons ev rst ih =>
    intro hinit stc sts hrel
    rw [List.foldl_cons, List.foldl_cons]
    exact ih (fun e he => hinit e (List.mem_cons_of_mem _ he)) _ _
      (crossStep_spec_rel S0 S1 E0 E1 x stc sts ev hrel
        (hinit ev (List.mem_cons_self _ _)))

/-- The `cross_two_gtis` sweep equals the amended per-stop-event rule on
validated inputs. -/
theorem cross_two_gtis_eq_spec (g0 g1 : GTIList) (h0 : gtiOk g0 = true)
    (h1 : gtiOk g1 = true) : cross_two_gtis g0 g1 = specCrossRule g0 g1 := by
  unfold cross_two_gtis specCrossRule
  rcases hev : crossEvents g0 g1 with _ | ⟨t, rst⟩
  · simp
  · have hinitall := cross_init_ok ((gtiOk_iff_P g0).1 h0)
      ((gtiOk_iff_P g1).1 h1) hev
    rw [hev] at hinitall
    have hfold := crossFold_spec_rel (startsOf g0) (startsOf g1)
      (endsOf g0) (endsOf g1) t.2.1 (t :: rst) hinitall
      ⟨t.2.1 - 1, []⟩ (none, []) ⟨rfl, Or.inl ⟨rfl, rfl⟩⟩
    exact hfold.1

/-- C1 amended: `cross_two_gtis([[0,10]], [[5,15]]) = [[5,10]]`, and for
every pair of validated lists the sweep emits, for each stop event `e`,
the candidate `[max(latest start of either series strictly before e), e]`
(skipping events where either series has no start before `e`), accepted
unless the candidate start lies at or before the previously emitted
stop, or the other series closes an interval strictly inside the
candidate, or — the clause the counterexample forces — the other
series' interval holding its latest start before `e` closes strictly
before the candidate start. -/
theorem c1_cross_amended :
    cross_two_gtis [(0, 10)] [(5, 15)] = [(5, 10)] ∧
    ∀ g0 g1 : GTIList, gtiOk g0 = true → gtiOk g1 = true →
      cross_two_gtis g0 g1 = specCrossRule g0 g1 := by
  constructor
  · norm_num [cross_two_gtis, crossEvents, sortByKey, List.insertionSort,
      List.orderedInsert, leKey, crossStep, crossCore, startsOf, endsOf, qlt,
      np_argmax, List.filter]
  · intro g0 g1 h0 h1
    exact cross_two_gtis_eq_spec g0 g1 h0 h1

/-- Witness for the amended C1 at `[[0,10]]`, `[[5,15]]`. -/
theorem c1_cross_amended_witness :
    gtiOk [((0 : ℚ), (10 : ℚ))] = true ∧
    gtiOk [((5 : ℚ), (15 : ℚ))] = true ∧
    cross_two_gtis [(0, 10)] [(5, 15)] = specCrossRule [(0, 10)] [(5, 15)] :=
  ⟨by norm_num [gtiOk, qle], by norm_num [gtiOk, qle],
    c1_cross_amended.2 [(0, 10)] [(5, 15)] (by norm_num [gtiOk, qle])
      (by norm_num [gtiOk, qle])⟩

theorem specCrossStep_char (sT sO eO : List ℚ) (st : Option ℚ × GTIList)
    (e : ℚ) :
    specCrossStep sT sO eO st e =
      if emptyCand sT sO e then st
      else if (match st.1 with
          | some le => qle (sCand sT sO e) le
          | none => false) then st
      else if vetoCand sT sO eO e then st
      else (some e, st.2 ++ [(sCand sT sO e, e)]) := rfl

theorem maxQ_mem : ∀ {l : List ℚ}, l ≠ [] → maxQ l ∈ l := by
  intro l
  induction l with
  | nil => intro h; exact absurd rfl h
  | cons x xs ih =>
    intro _
    cases xs with
    | nil => exact List.mem_singleton.2 rfl
    | cons y ys =>
      rw [maxQ_cons (by simp)]
      rcases le_total (maxQ (y :: ys)) x with hle | hle
      · rw [max_eq_left hle]
        exact List.mem_cons_self _ _
      · rw [max_eq_right hle]
        exact List.mem_cons_of_mem _ (ih (by simp))

theorem sCand_lt {sT sO : List ℚ} {e : ℚ}
    (h : emptyCand sT sO e = false) : sCand sT sO e < e := by
  rw [emptyCand, Bool.or_eq_false_iff] at h
  have hT : sT.filter (fun x => qlt x e) ≠ [] :=
    List.isEmpty_eq_false.1 h.1
  have hO : sO.filter (fun x => qlt x e) ≠ [] :=
    List.isEmpty_eq_false.1 h.2
  have hmT : maxQ (sT.filter (fun x => qlt x e)) < e := by
    have := List.of_mem_filter (maxQ_mem hT)
    rw [qlt_eq_true] at this
    exact this
  have hmO : maxQ (sO.filter (fun x => qlt x e)) < e := by
    have := List.of_mem_filter (maxQ_mem hO)
    rw [qlt_eq_true] at this
    exact this
  exact max_lt hmT hmO

theorem specStep_resolve (sT sO eO : List ℚ) (st : Option ℚ × GTIList)
    (e : ℚ) (hE : emptyCand sT sO e = false) :
    specCrossStep sT sO eO st e =
      if (match st.1 with
          | some le => qle (sCand sT sO e) le
          | none => false) then st
      else if vetoCand sT sO eO e then st
      else (some e, st.2 ++ [(sCand sT sO e, e)]) := by
  rw [specCrossStep_char, hE]
  rfl

theorem specStep_emitted (sT sO eO : List ℚ) (acc : GTIList) (e : ℚ)
    (hE : emptyCand sT sO e = false) :
    specCrossStep sT sO eO (some e, acc) e = (some e, acc) := by
  rw [specStep_resolve sT sO eO _ e hE]
  have : (match (some e, acc).1 with
      | some le => qle (sCand sT sO e) le
      | none => false) = true := by
    show qle (sCand sT sO e) e = true
    rw [qle_eq_true]
    exact le_of_lt (sCand_lt hE)
  rw [this]
  rfl

/-- Two sweep steps at the same stop time commute (in either order, the
first acceptable candidate is emitted and the other step then skips). -/
theorem specStep_comm (S0 S1 E0 E1 : List ℚ) (e : ℚ)
    (st : Option ℚ × GTIList) :
    specCrossStep S1 S0 E0 (specCrossStep S0 S1 E1 st e) e =
      specCrossStep S0 S1 E1 (specCrossStep S1 S0 E0 st e) e := by
  have hemp : emptyCand S1 S0 e = emptyCand S0 S1 e := Bool.or_comm _ _
  have hsc : sCand S1 S0 e = sCand S0 S1 e := max_comm _ _
  by_cases hE : emptyCand S0 S1 e = true
  · have hE' : emptyCand S1 S0 e = true := by rw [hemp]; exact hE
    have h1 : specCrossStep S0 S1 E1 st e = st := by
      rw [specCrossStep_char, hE]
      rfl
    have h2 : specCrossStep S1 S0 E0 st e = st := by
      rw [specCrossStep_char, hE']
      rfl
    rw [h1, h2, h1]
  · have hEf : emptyCand S0 S1 e = false := by
      rwa [Bool.not_eq_true] at hE
    have hEf' : emptyCand S1 S0 e = false := by rw [hemp]; exact hEf
    by_cases hth : (match st.1 with
        | some le => qle (sCand S0 S1 e) le
        | none => false) = true
    · have hth' : (match st.1 with
          | some le => qle (sCand S1 S0 e) le
          | none => false) = true := by rw [hsc]; exact hth
      have h1 : specCrossStep S0 S1 E1 st e = st := by
        rw [specStep_resolve _ _ _ _ _ hEf, if_pos hth]
      have h2 : specCrossStep S1 S0 E0 st e = st := by
        rw [specStep_resolve _ _ _ _ _ hEf', if_pos hth']
      rw [h1, h2, h1]
    · have hth' : ¬ (match st.1 with
          | some le => qle (sCand S1 S0 e) le
          | none => false) = true := by rw [hsc]; exact hth
      by_cases hv1 : vetoCand S0 S1 E1 e = true
      · have h1 : specCrossStep S0 S1 E1 st e = st := by
          rw [specStep_resolve _ _ _ _ _ hEf, if_neg hth, if_pos hv1]
        by_cases hv2 : vetoCand S1 S0 E0 e = true
        · have h2 : specCrossStep S1 S0 E0 st e = st := by
            rw [specStep_resolve _ _ _ _ _ hEf', if_neg hth', if_pos hv2]
          rw [h1, h2, h1]
        · have h2 : specCrossStep S1 S0 E0 st e =
              (some e, st.2 ++ [(sCand S1 S0 e, e)]) := by
            rw [specStep_resolve _ _ _ _ _ hEf', if_neg hth', if_neg hv2]
          rw [h1, h2]
          rw [specStep_emitted S0 S1 E1 (st.2 ++ [(sCand S1 S0 e, e)]) e hEf]
      · have h1 : specCrossStep S0 S1 E1 st e =
            (some e, st.2 ++ [(sCand S0 S1 e, e)]) := by
          rw [specStep_resolve _ _ _ _ _ hEf, if_neg hth, if_neg hv1]
        by_cases hv2 : vetoCand S1 S0 E0 e = true
        · have h2 : specCrossStep S1 S0 E0 st e = st := by
            rw [specStep_resolve _ _ _ _ _ hEf', if_neg hth', if_pos hv2]
          rw [h1, h2, h1]
          rw [specStep_emitted S1 S0 E0 (st.2 ++ [(sCand S0 S1 e, e)]) e hEf']
        · have h2 : specCrossStep S1 S0 E0 st e =
              (some e, st.2 ++ [(sCand S1 S0 e, e)]) := by
            rw [specStep_resolve _ _ _ _ _ hEf', if_neg hth', if_neg hv2]
          rw [h1, h2]
          rw [specStep_emitted S1 S0 E0 (st.2 ++ [(sCand S0 S1 e, e)]) e hEf']
          rw [specStep_emitted S0 S1 E1 (st.2 ++ [(sCand S1 S0 e, e)]) e hEf]
          rw [hsc]

theorem foldl_bubble (F : Option ℚ × GTIList → ℚ × ℚ × Bool → Option ℚ × GTIList)
    (hcomm : ∀ (st : Option ℚ × GTIList) (a b : ℚ × ℚ × Bool), a.1 = b.1 →
      F (F st a) b = F (F st b) a) :
    ∀ (p : List (ℚ × ℚ × Bool)) (y : ℚ × ℚ × Bool)
      (q : List (ℚ × ℚ × Bool)) (st : Option ℚ × GTIList),
      (∀ a ∈ p, a.1 = y.1) →
      (p ++ y :: q).foldl F st = (y :: (p ++ q)).foldl F st := by
  intro p
  induction p with
  | nil => intro y q st _; rfl
  | cons a p' ih =>
    intro y q st hp
    rw [List.cons_append, List.foldl_cons]
    rw [ih y q (F st a) (fun b hb => hp b (List.mem_cons_of_mem _ hb))]
    rw [List.foldl_cons, List.foldl_cons]
    rw [List.cons_append, List.foldl_cons]
    rw [hcomm st a y (hp a (List.mem_cons_self _ _))]

theorem foldl_sorted_perm
    (F : Option ℚ × GTIList → ℚ × ℚ × Bool → Option ℚ × GTIList)
    (hcomm : ∀ (st : Option ℚ × GTIList) (a b : ℚ × ℚ × Bool), a.1 = b.1 →
      F (F st a) b = F (F st b) a) :
    ∀ (n : ℕ) (l₁ l₂ : List (ℚ × ℚ × Bool)), l₁.length ≤ n → l₁.Perm l₂ →
      List.Pairwise (fun a b : ℚ × ℚ × Bool => a.1 ≤ b.1) l₁ →
      List.Pairwise (fun a b : ℚ × ℚ × Bool => a.1 ≤ b.1) l₂ →
      ∀ st, l₁.foldl F st = l₂.foldl F st := by
  intro n
  induction n with
  | zero =>
    intro l₁ l₂ hlen hperm _ _ st
    have h1 : l₁ = [] := List.length_eq_zero.1 (by omega)
    subst h1
    have h2 : l₂ = [] := hperm.symm.eq_nil
    subst h2
    rfl
  | succ n ih =>
    intro l₁ l₂ hlen hperm hs1 hs2 st
    cases l₁ with
    | nil =>
      have h2 : l₂ = [] := hperm.symm.eq_nil
      subst h2
      rfl
    | cons x xs =>
      cases l₂ with
      | nil => exact absurd hperm.eq_nil (by simp)
      | cons y ys =>
        by_cases hxy : x = y
        · subst hxy
          rw [List.foldl_cons, List.foldl_cons]
          exact ih xs ys (by simpa using Nat.le_of_succ_le_succ hlen)
            hperm.cons_inv (List.pairwise_cons.1 hs1).2
            (List.pairwise_cons.1 hs2).2 (F st x)
        · have hy_xs : y ∈ xs := by
            have hyx : y ∈ x :: xs := hperm.mem_iff.2 (List.mem_cons_self _ _)
            rcases List.mem_cons.1 hyx with h | h
            · exact absurd h.symm hxy
            · exact h
          have hx_ys : x ∈ ys := by
            have hxy' : x ∈ y :: ys := hperm.mem_iff.1 (List.mem_cons_self _ _)
            rcases List.mem_cons.1 hxy' with h | h
            · exact absurd h hxy
            · exact h
          have hkeyxy : x.1 = y.1 :=
            le_antisymm (List.rel_of_pairwise_cons hs1 hy_xs)
              (List.rel_of_pairwise_cons hs2 hx_ys)
          rcases List.append_of_mem hy_xs with ⟨p, q, rfl⟩
          have hpkeys : ∀ a ∈ p, a.1 = y.1 := by
            intro a ha
            have hax : x.1 ≤ a.1 :=
              List.rel_of_pairwise_cons hs1
                (List.mem_append.2 (Or.inl ha))
            have hay : a.1 ≤ y.1 := by
              have hpwxs := (List.pairwise_cons.1 hs1).2
              rw [List.pairwise_append] at hpwxs
              exact hpwxs.2.2 a ha y (List.mem_cons_self _ _)
            exact le_antisymm hay (hkeyxy ▸ hax)
          rw [List.foldl_cons, List.foldl_cons]
          rw [foldl_bubble F hcomm p y q (F st x) hpkeys]
          rw [List.foldl_cons]
          rw [hcomm st x y hkeyxy]
          have hperm' : (x :: (p ++ q)).Perm ys := by
            have hmid : (x :: (p ++ y :: q)).Perm (y :: (x :: (p ++ q))) := by
              have : ((x :: p) ++ y :: q).Perm (y :: ((x :: p) ++ q)) :=
                List.perm_middle
              simpa using this
            exact (hmid.symm.trans hperm).cons_inv
          have hs1' : List.Pairwise (fun a b : ℚ × ℚ × Bool => a.1 ≤ b.1)
              (x :: (p ++ q)) := by
            refine List.Pairwise.sublist ?_ hs1
            refine List.Sublist.cons₂ x ?_
            exact List.Sublist.append_left (List.sublist_cons_self _ _) p
          have hs2' : List.Pairwise (fun a b : ℚ × ℚ × Bool => a.1 ≤ b.1)
              ys := (List.pairwise_cons.1 hs2).2
          have hlen' : (x :: (p ++ q)).length ≤ n := by
            simp only [List.length_cons, List.length_append] at hlen ⊢
            omega
          have hmain := ih (x :: (p ++ q)) ys hlen' hperm' hs1' hs2' (F st y)
          rw [List.foldl_cons] at hmain
          exact hmain

theorem orderedInsert_map_negTag (x : ℚ × ℚ × Bool) :
    ∀ l : List (ℚ × ℚ × Bool),
      List.orderedInsert (leKey (fun u : ℚ × ℚ × Bool => u.1)) (negTag x)
        (l.map negTag) =
      (List.orderedInsert (leKey (fun u : ℚ × ℚ × Bool => u.1)) x l).map
        negTag := by
  intro l
  induction l with
  | nil => rfl
  | cons y ys ih =>
    rw [List.map_cons, List.orderedInsert, List.orderedInsert]
    by_cases h : leKey (fun u : ℚ × ℚ × Bool => u.1) x y
    · rw [if_pos h, if_pos (show leKey (fun u : ℚ × ℚ × Bool => u.1)
        (negTag x) (negTag y) from h)]
      rfl
    · rw [if_neg h, if_neg (show ¬ leKey (fun u : ℚ × ℚ × Bool => u.1)
        (negTag x) (negTag y) from h)]
      rw [List.map_cons, ih]

theorem sortByKey_map_negTag :
    ∀ l : List (ℚ × ℚ × Bool),
      sortByKey (fun u : ℚ × ℚ × Bool => u.1) (l.map negTag) =
        (sortByKey (fun u : ℚ × ℚ × Bool => u.1) l).map negTag := by
  intro l
  induction l with
  | nil => rfl
  | cons x xs ih =>
    rw [List.map_cons]
    rw [sortByKey, List.insertionSort, sortByKey, List.insertionSort]
    rw [show List.insertionSort (leKey (fun u : ℚ × ℚ × Bool => u.1))
        (xs.map negTag) = sortByKey (fun u : ℚ × ℚ × Bool => u.1)
        (xs.map negTag) from rfl]
    rw [ih]
    exact orderedInsert_map_negTag x _

theorem crossEvents_swap (g0 g1 : GTIList) :
    crossEvents g1 g0 =
      (sortByKey (fun u : ℚ × ℚ × Bool => u.1)
        ((g1.map (fun p => (p.2, p.1, true))) ++
          (g0.map (fun p => (p.2, p.1, false))))).map negTag := by
  rw [← sortByKey_map_negTag]
  unfold crossEvents
  congr 1
  rw [List.map_append, List.map_map, List.map_map]
  rfl

theorem foldl_negTag_dispatch (g0 g1 : GTIList) :
    ∀ (l : List (ℚ × ℚ × Bool)) (st : Option ℚ × GTIList),
      (l.map negTag).foldl (fun st ev =>
        if ev.2.2 then specCrossStep (startsOf g0) (startsOf g1) (endsOf g1) st ev.1
        else specCrossStep (startsOf g1) (startsOf g0) (endsOf g0) st ev.1) st =
      l.foldl (fun st ev =>
        if ev.2.2 then specCrossStep (startsOf g1) (startsOf g0) (endsOf g0) st ev.1
        else specCrossStep (startsOf g0) (startsOf g1) (endsOf g1) st ev.1) st := by
  intro l
  induction l with
  | nil => intro st; rfl
  | cons ev l ih =>
    intro st
    have hstep : (if (negTag ev).2.2 then
          specCrossStep (startsOf g0) (startsOf g1) (endsOf g1) st (negTag ev).1
        else specCrossStep (startsOf g1) (startsOf g0) (endsOf g0) st (negTag ev).1) =
        (if ev.2.2 then
          specCrossStep (startsOf g1) (startsOf g0) (endsOf g0) st ev.1
        else specCrossStep (startsOf g0) (startsOf g1) (endsOf g1) st ev.1) := by
      cases h : ev.2.2 <;> simp [negTag, h]
    rw [List.map_cons, List.foldl_cons, List.foldl_cons, ih, hstep]

theorem dispatch_comm (g0 g1 : GTIList) :
    ∀ (st : Option ℚ × GTIList) (a b : ℚ × ℚ × Bool), a.1 = b.1 →
      (fun st ev =>
        if ev.2.2 then specCrossStep (startsOf g1) (startsOf g0) (endsOf g0) st ev.1
        else specCrossStep (startsOf g0) (startsOf g1) (endsOf g1) st ev.1)
        ((fun st ev =>
          if ev.2.2 then specCrossStep (startsOf g1) (startsOf g0) (endsOf g0) st ev.1
          else specCrossStep (startsOf g0) (startsOf g1) (endsOf g1) st ev.1) st a) b =
      (fun st ev =>
        if ev.2.2 then specCrossStep (startsOf g1) (startsOf g0) (endsOf g0) st ev.1
        else specCrossStep (startsOf g0) (startsOf g1) (endsOf g1) st ev.1)
        ((fun st ev =>
          if ev.2.2 then specCrossStep (startsOf g1) (startsOf g0) (endsOf g0) st ev.1
          else specCrossStep (startsOf g0) (startsOf g1) (endsOf g1) st ev.1) st b) a := by
  intro st a b he
  dsimp only
  rw [he]
  cases ha : a.2.2 <;> cases hb : b.2.2 <;>
    simp only [ha, hb, Bool.false_eq_true, if_false, if_true, reduceIte]
  · exact specStep_comm (startsOf g0) (startsOf g1) (endsOf g0) (endsOf g1)
      b.1 st
  · exact (specStep_comm (startsOf g0) (startsOf g1) (endsOf g0) (endsOf g1)
      b.1 st).symm

theorem specCrossRule_comm (g0 g1 : GTIList) :
    specCrossRule g1 g0 = specCrossRule g0 g1 := by
  unfold specCrossRule
  rw [crossEvents_swap g0 g1]
  rw [foldl_negTag_dispatch g0 g1]
  have hfold := foldl_sorted_perm
    (fun st ev =>
      if ev.2.2 then specCrossStep (startsOf g1) (startsOf g0) (endsOf g0) st ev.1
      else specCrossStep (startsOf g0) (startsOf g1) (endsOf g1) st ev.1)
    (dispatch_comm g0 g1)
    (sortByKey (fun u : ℚ × ℚ × Bool => u.1)
      ((g1.map (fun p => (p.2, p.1, true))) ++
        (g0.map (fun p => (p.2, p.1, false))))).length
    (sortByKey (fun u : ℚ × ℚ × Bool => u.1)
      ((g1.map (fun p => (p.2, p.1, true))) ++
        (g0.map (fun p => (p.2, p.1, false)))))
    (crossEvents g0 g1) le_rfl ?_ ?_ ?_ (none, [])
  · rw [hfold]
  · -- the two sorted event lists are permutations of each other
    refine List.Perm.trans (List.perm_insertionSort _ _) ?_
    refine List.Perm.trans List.perm_append_comm ?_
    exact (List.perm_insertionSort _ _).symm
  · exact sortByKey_sorted (fun u : ℚ × ℚ × Bool => u.1) _
  · exact sortByKey_sorted (fun u : ℚ × ℚ × Bool => u.1) _

/-- C7: for every pair of validated interval lists, `cross_two_gtis(A, B)`
and `cross_two_gtis(B, A)` contain the same intervals — here in fact the
very same list, so in particular they are equal after sorting by start. -/
theorem c7_cross_commutative (g0 g1 : GTIList)
    (h0 : gtiOk g0 = true) (h1 : gtiOk g1 = true) :
    cross_two_gtis g0 g1 = cross_two_gtis g1 g0 ∧
    sortByKey (fun p : ℚ × ℚ => p.1) (cross_two_gtis g0 g1) =
      sortByKey (fun p : ℚ × ℚ => p.1) (cross_two_gtis g1 g0) := by
  have h : cross_two_gtis g0 g1 = cross_two_gtis g1 g0 := by
    rw [cross_two_gtis_eq_spec g0 g1 h0 h1, cross_two_gtis_eq_spec g1 g0 h1 h0]
    exact (specCrossRule_comm g0 g1).symm
  exact ⟨h, by rw [h]⟩

theorem c7_cross_commutative_witness :
    gtiOk [((2 : ℚ), (5 : ℚ)), (6, 9)] = true ∧
    gtiOk [((5 : ℚ), (6 : ℚ))] = true ∧
    cross_two_gtis [(2, 5), (6, 9)] [(5, 6)] =
      cross_two_gtis [(5, 6)] [(2, 5), (6, 9)] :=
  ⟨by norm_num [gtiOk, qle], by norm_num [gtiOk, qle],
    (c7_cross_commutative [(2, 5), (6, 9)] [(5, 6)]
      (by norm_num [gtiOk, qle]) (by norm_num [gtiOk, qle])).1⟩

end Stingray

